import Mathlib

/-!
Verification of the fraud-ring detection pipeline (Parziiiival/riftfinal).

The Python sources under `src/backend/` are shallowly embedded here:
  * floats are modelled as exact rationals (`ℚ`),
  * `datetime` timestamps are modelled as rational seconds since an epoch,
  * Python dicts (insertion-ordered) are modelled as association lists
    over `String` keys,
  * Python sets whose iteration order is irrelevant to the observable
    outputs are modelled as duplicate-free lists,
  * Python's `round` (banker's rounding) is modelled by `pyRound`.
-/

set_option maxRecDepth 20000

attribute [local semireducible] Rat.add Rat.mul Rat.inv Rat.sub Rat.ofScientific

/-- Banker's rounding (round half to even) of a rational to an integer;
models Python's `round(x)` tie behaviour. -/
def roundHalfEven (y : ℚ) : ℤ :=
  let n := ⌊y⌋
  let f := y - n
  if f < 1/2 then n
  else if 1/2 < f then n + 1
  else if n % 2 = 0 then n else n + 1

/-- Models Python's `round(y, d)`. -/
def pyRound (y : ℚ) (d : ℕ) : ℚ :=
  (roundHalfEven (y * (10 : ℚ) ^ d) : ℚ) / (10 : ℚ) ^ d

/-- Lookup with default in an association list; models `dict.get(k, d)` /
`defaultdict` read access. -/
def aget {α : Type} (m : List (String × α)) (k : String) (d : α) : α :=
  match m with
  | [] => d
  | (k', v) :: rest => if k' = k then v else aget rest k d

/-- Optional lookup in an association list; models `dict.get(k)` /
`k in dict`. -/
def alookup {α : Type} (m : List (String × α)) (k : String) : Option α :=
  match m with
  | [] => none
  | (k', v) :: rest => if k' = k then some v else alookup rest k

/-- Write a key in an association list, preserving insertion order of keys
(a new key goes to the back); models `dict[k] = v`. -/
def aset {α : Type} (m : List (String × α)) (k : String) (v : α) :
    List (String × α) :=
  match m with
  | [] => [(k, v)]
  | (k', v') :: rest => if k' = k then (k, v) :: rest else (k', v') :: aset rest k v

/-- The keys of an association list, in insertion order. -/
def akeys {α : Type} (m : List (String × α)) : List String := m.map (·.1)

/-- Python's `<` on strings (lexicographic by code point), expressed on
the underlying character lists so that concrete comparisons evaluate. -/
def strLt (a b : String) : Prop := a.data < b.data

/-- Python's `≤` on strings. -/
def strLe (a b : String) : Prop := a.data ≤ b.data

instance : DecidableRel strLt := fun a b =>
  inferInstanceAs (Decidable (a.data < b.data))

instance : DecidableRel strLe := fun a b =>
  inferInstanceAs (Decidable (a.data ≤ b.data))

instance : IsTotal String strLe := ⟨fun a b => le_total a.data b.data⟩

instance : IsTrans String strLe := ⟨fun _ _ _ h₁ h₂ => le_trans h₁ h₂⟩

-- ─────────────────────────────────────────────────────────────────────
-- graph_builder.py
-- ─────────────────────────────────────────────────────────────────────

/-- Embeds `graph_builder.Transaction`: amounts and timestamps are exact
rationals (timestamps in seconds, UTC). -/
structure Transaction where
  transaction_id : String
  sender : String
  receiver : String
  amount : ℚ
  timestamp : ℚ
  deriving DecidableEq, Repr, Inhabited

/-- Embeds `graph_builder.NodeStats`. -/
structure NodeStats where
  in_degree : ℕ := 0
  out_degree : ℕ := 0
  total_in_amount : ℚ := 0
  total_out_amount : ℚ := 0
  timestamps : List ℚ := []
  deriving DecidableEq, Repr, Inhabited

/-- Embeds the `total_degree` property of `NodeStats`. -/
def NodeStats.total_degree (s : NodeStats) : ℕ := s.in_degree + s.out_degree

/-- Embeds `graph_builder.GraphData`. `all_nodes` is a Python set, built
by repeated insertion; it is modelled as the duplicate-free list of nodes
in first-insertion order. -/
structure GraphData where
  transactions : List Transaction
  adj_list : List (String × List Transaction)
  reverse_adj_list : List (String × List Transaction)
  node_stats : List (String × NodeStats)
  all_nodes : List String
  deriving DecidableEq, Repr, Inhabited

/-- Models `set.add` on the insertion-ordered list representation. -/
def insertNode (ns : List String) (x : String) : List String :=
  if x ∈ ns then ns else ns ++ [x]

/-- One iteration of the loop body of `graph_builder._build_graph`. -/
def buildStep (g : GraphData) (tx : Transaction) : GraphData :=
  let adj := aset g.adj_list tx.sender (aget g.adj_list tx.sender [] ++ [tx])
  let radj := aset g.reverse_adj_list tx.receiver
      (aget g.reverse_adj_list tx.receiver [] ++ [tx])
  let nodes := insertNode (insertNode g.all_nodes tx.sender) tx.receiver
  let s0 := aget g.node_stats tx.sender default
  let stats1 := aset g.node_stats tx.sender
      { s0 with out_degree := s0.out_degree + 1,
                total_out_amount := s0.total_out_amount + tx.amount,
                timestamps := s0.timestamps ++ [tx.timestamp] }
  let r0 := aget stats1 tx.receiver default
  let stats2 := aset stats1 tx.receiver
      { r0 with in_degree := r0.in_degree + 1,
                total_in_amount := r0.total_in_amount + tx.amount,
                timestamps := r0.timestamps ++ [tx.timestamp] }
  { g with adj_list := adj, reverse_adj_list := radj,
           node_stats := stats2, all_nodes := nodes }

/-- Embeds `graph_builder._build_graph`. -/
def build_graph (txs : List Transaction) : GraphData :=
  txs.foldl buildStep
    { transactions := txs, adj_list := [], reverse_adj_list := [],
      node_stats := [], all_nodes := [] }

/-- Embeds the error kinds of `graph_builder.parse_csv` relevant to the
row-accumulation loop. -/
inductive ParseErr where
  | TooLarge
  | EmptyData
  deriving DecidableEq, Repr

/-- Embeds the constant `MAX_TRANSACTIONS`. -/
def MAX_TRANSACTIONS : ℕ := 10000

/-- Embeds the row loop of `graph_builder.parse_csv`: each element of
`rows` is the result of parsing one CSV data row (`none` = malformed row,
silently skipped).  The size check runs at the top of each iteration,
before the row is examined, exactly as in the source. -/
def parse_rows_loop : List (Option Transaction) → List Transaction →
    Except ParseErr (List Transaction)
  | [], acc => .ok acc
  | row :: rest, acc =>
    if MAX_TRANSACTIONS ≤ acc.length then .error .TooLarge
    else
      match row with
      | some tx => parse_rows_loop rest (acc ++ [tx])
      | none => parse_rows_loop rest acc

/-- Embeds `graph_builder.parse_csv` from the per-row parse results on. -/
def parse_csv_rows (rows : List (Option Transaction)) :
    Except ParseErr GraphData :=
  match parse_rows_loop rows [] with
  | .error e => .error e
  | .ok txs => if txs = [] then .error .EmptyData else .ok (build_graph txs)

-- ─────────────────────────────────────────────────────────────────────
-- Shared numeric helpers used by the detectors (cycle_detector.py,
-- shell_detector.py, confidence_engine.py)
-- ─────────────────────────────────────────────────────────────────────

/-- Models Python's `max` over a nonempty list (0 on `[]`, a case that the
sources never hit because they guard emptiness first). -/
def listMaxQ : List ℚ → ℚ
  | [] => 0
  | h :: t => t.foldl max h

/-- Models Python's `min` over a nonempty list (0 on `[]`). -/
def listMinQ : List ℚ → ℚ
  | [] => 0
  | h :: t => t.foldl min h

/-- Embeds `_time_span_hours` (identical in `cycle_detector.py` and
`shell_detector.py`): total span of the transactions' timestamps, in
hours. -/
def time_span_hours (txs : List Transaction) : ℚ :=
  if txs = [] then 0
  else (listMaxQ (txs.map (·.timestamp)) - listMinQ (txs.map (·.timestamp))) / 3600

/-- Embeds `cycle_detector._amount_ratio`.  The Python function returns
`float("inf")` when the minimum amount is 0; that case is modelled as
`none`. -/
def amount_ratio (txs : List Transaction) : Option ℚ :=
  if txs.map (·.amount) = [] then some 0
  else if listMinQ (txs.map (·.amount)) = 0 then none
  else some (listMaxQ (txs.map (·.amount)) / listMinQ (txs.map (·.amount)))

/-- Embeds `cycle_detector._validate_cycle`: span ≤ 72 h and ratio ≤ 1.25
(an infinite ratio — `none` — always exceeds the bound). -/
def validate_cycle (txs : List Transaction) : Bool :=
  if 72 < time_span_hours txs then false
  else
    match amount_ratio txs with
    | none => false
    | some r => if 5/4 < r then false else true

-- ─────────────────────────────────────────────────────────────────────
-- The ring record (detector output dicts)
-- ─────────────────────────────────────────────────────────────────────

/-- Embeds the ring dicts produced by the three detectors and mutated by
the scoring engine.  A Python dict key that may be absent is modelled as
an `Option` field (`none` = key absent), so presence tests like
`"amount_ratio" in ring` become `isSome` matches. -/
structure RingRec where
  pattern_type : String
  members : List String
  transactions : List Transaction
  cycle_length : Option ℕ := none
  time_span_hours : Option ℚ := none
  amount_ratio : Option ℚ := none
  hub : Option String := none
  direction : Option String := none
  counterparty_count : Option ℕ := none
  diversity_score : Option ℚ := none
  variance_ratio : Option ℚ := none
  dampened : Option Bool := none
  path_length : Option ℕ := none
  tightness_score : Option ℚ := none
  ring_id : Option String := none
  structural_confidence : Option ℚ := none
  deriving DecidableEq, Repr, Inhabited

-- ─────────────────────────────────────────────────────────────────────
-- cycle_detector.py
-- ─────────────────────────────────────────────────────────────────────

/-- The mutable state threaded through `cycle_detector._dfs`:
`seen_canonical` (a set of member tuples, modelled as the list of its
elements) and the accumulated `results`. -/
structure CycState where
  seen_canonical : List (List String)
  results : List RingRec
  deriving DecidableEq, Repr, Inhabited

/-- The ring dict appended by `cycle_detector._dfs` when a cycle
validates. -/
def mk_cycle_ring (path : List String) (txp : List Transaction) : RingRec :=
  { pattern_type := "cycle", members := path, transactions := txp,
    cycle_length := some path.length,
    time_span_hours := some (pyRound (time_span_hours txp) 2),
    amount_ratio := some (pyRound ((amount_ratio txp).getD 0) 4) }

/-- Embeds `cycle_detector._dfs`.  The recursion is fuelled; a fuel of
`6` (supplied by `detect_cycles`) strictly dominates the depth bound
`MAX_CYCLE_LEN = 5`, so the fuel never runs out on reachable calls. -/
def cycle_dfs (g : GraphData) : ℕ → List String → List Transaction → String →
    CycState → CycState
  | 0, _, _, _, st => st
  | fuel + 1, path, tx_path, start, st =>
    if 5 < path.length then st
    else
      (aget g.adj_list (path.getLastD "") []).foldl (fun st tx =>
        if strLt tx.receiver start then st
        else if tx.receiver = start ∧ 3 ≤ path.length then
          if validate_cycle (tx_path ++ [tx]) then
            if path ∈ st.seen_canonical then st
            else { seen_canonical := path :: st.seen_canonical,
                   results := st.results ++ [mk_cycle_ring path (tx_path ++ [tx])] }
          else st
        else if tx.receiver ∉ path ∧ path.length < 5 then
          if time_span_hours (tx_path ++ [tx]) ≤ 72 then
            cycle_dfs g fuel (path ++ [tx.receiver]) (tx_path ++ [tx]) start st
          else st
        else st) st

/-- Models Python's `sorted` on strings (stable; `insertionSort` is
stable and produces the same sorted list). -/
def sortedStrings (l : List String) : List String := l.insertionSort strLe

/-- Models Python's `str.startswith`, on the underlying character lists
so that concrete evaluation reduces. -/
def pyStartsWith (t p : String) : Bool := p.data.isPrefixOf t.data

/-- The full detector state after `cycle_detector.detect_cycles` has
run its DFS from every candidate start in ascending id order. -/
def cycleDetState (g : GraphData) : CycState :=
  (sortedStrings ((akeys g.adj_list).filter (fun n =>
    decide (0 < (aget g.node_stats n default).in_degree) &&
    decide (0 < (aget g.node_stats n default).out_degree)))).foldl
    (fun st s => cycle_dfs g 6 [s] [] s st)
    { seen_canonical := [], results := [] }

/-- Embeds `cycle_detector.detect_cycles`. -/
def detect_cycles (g : GraphData) : List RingRec := (cycleDetState g).results

-- ─────────────────────────────────────────────────────────────────────
-- shell_detector.py
-- ─────────────────────────────────────────────────────────────────────

/-- Embeds `shell_detector._validate_chain`: nonempty, span ≤ 72 h,
all amounts positive, max/min ratio ≤ 3.0. -/
def validate_chain (txs : List Transaction) : Bool :=
  if txs = [] then false
  else if 72 < time_span_hours txs then false
  else
    let amounts := txs.map (·.amount)
    if listMinQ amounts ≤ 0 then false
    else if 3 < listMaxQ amounts / listMinQ amounts then false
    else true

/-- Embeds `shell_detector._compute_tightness`:
`1 / avg(total_degree of intermediates)` with a fallback degree of 1 for
nodes missing from `node_stats`. -/
def compute_tightness (g : GraphData) (path : List String) : ℚ :=
  let intermediates := (path.drop 1).dropLast
  if intermediates = [] then 1
  else
    let total_degree : ℕ := intermediates.foldl (fun acc node =>
      acc + match alookup g.node_stats node with
            | some s => s.total_degree
            | none => 1) 0
    let avg_degree : ℚ := (total_degree : ℚ) / (intermediates.length : ℚ)
    if avg_degree = 0 then 1 else 1 / avg_degree

/-- The state threaded through `shell_detector._explore_chains`
(`seen_paths` set and `raw_results` list). -/
structure ShellState where
  seen_paths : List (List String)
  results : List RingRec
  deriving DecidableEq, Repr, Inhabited

/-- The ring dict appended by `shell_detector._explore_chains`. -/
def mk_shell_ring (g : GraphData) (path : List String) (txp : List Transaction) :
    RingRec :=
  { pattern_type := "shell", members := path, transactions := txp,
    path_length := some path.length,
    tightness_score := some (pyRound (compute_tightness g path) 4) }

/-- Embeds the intermediate-degree gate of `shell_detector._explore_chains`
(`node_stats.get(current)` is `None`, or `total_degree ∉ [2, 3]`, aborts
the extension). -/
def intermediateOk (g : GraphData) (node : String) : Bool :=
  match alookup g.node_stats node with
  | none => false
  | some stats => decide (2 ≤ stats.total_degree) && decide (stats.total_degree ≤ 3)

/-- The record block at the top of `shell_detector._explore_chains`
(`depth ≥ 3`, unseen, and validated chains are emitted). -/
def shellRecordStep (g : GraphData) (path : List String)
    (tx_path : List Transaction) (st : ShellState) : ShellState :=
  if 3 ≤ path.length ∧ path ∉ st.seen_paths ∧ validate_chain tx_path then
    { seen_paths := path :: st.seen_paths,
      results := st.results ++ [mk_shell_ring g path tx_path] }
  else st

/-- Embeds `shell_detector._explore_chains`.  Fuelled recursion; fuel `9`
(from `detect_shell_chains`) dominates the depth bound `MAX_PATH_LEN = 8`. -/
def explore_chains (g : GraphData) : ℕ → List String → List Transaction →
    ShellState → ShellState
  | 0, _, _, st => st
  | fuel + 1, path, tx_path, st =>
    if 8 ≤ path.length then
      shellRecordStep g path tx_path st
    else
      (aget g.adj_list (path.getLastD "") []).foldl (fun st tx =>
        if tx.receiver ∈ path then st
        else if tx.amount < 100 then st
        else if 1 < path.length ∧ ¬ intermediateOk g (path.getLastD "") then st
        else if 72 < time_span_hours (tx_path ++ [tx]) then st
        else explore_chains g fuel (path ++ [tx.receiver]) (tx_path ++ [tx]) st)
        (shellRecordStep g path tx_path st)

/-- Sorting relation for `_keep_maximal_chains`: `path_length` descending
(Python's `sort(key=lambda c: -c["path_length"])`). -/
def shellLenDesc (a b : RingRec) : Prop :=
  b.path_length.getD 0 ≤ a.path_length.getD 0

instance : DecidableRel shellLenDesc := fun a b =>
  inferInstanceAs (Decidable (b.path_length.getD 0 ≤ a.path_length.getD 0))

instance : IsTotal RingRec shellLenDesc :=
  ⟨fun a b => (Nat.le_total (b.path_length.getD 0) (a.path_length.getD 0)).elim Or.inl Or.inr⟩

instance : IsTrans RingRec shellLenDesc :=
  ⟨fun _ _ _ h₁ h₂ => le_trans h₂ h₁⟩

/-- All contiguous subsequences of length ≥ 2 of `l`, as registered by
`shell_detector._keep_maximal_chains` (lengths `2..n`, all starts). -/
def contiguousSubseqs (l : List String) : List (List String) :=
  (List.range (l.length + 1)).flatMap (fun len =>
    if 2 ≤ len then
      (List.range (l.length - len + 1)).map (fun s => (l.drop s).take len)
    else [])

/-- One iteration of the keep loop of
`shell_detector._keep_maximal_chains` — state is (kept chains, covered
subsequence set). -/
def keep_step (st : List RingRec × List (List String)) (chain : RingRec) :
    List RingRec × List (List String) :=
  if chain.members ∈ st.2 then st
  else (st.1 ++ [chain], st.2 ++ contiguousSubseqs chain.members)

/-- Embeds `shell_detector._keep_maximal_chains`. -/
def keep_maximal_chains (chains : List RingRec) : List RingRec :=
  if chains = [] then []
  else ((chains.insertionSort shellLenDesc).foldl keep_step ([], [])).1

/-- Embeds `shell_detector.detect_shell_chains`. -/
def detect_shell_chains (g : GraphData) : List RingRec :=
  keep_maximal_chains
    (((sortedStrings g.all_nodes).foldl (fun st start_node =>
      explore_chains g 9 [start_node] [] st)
      { seen_paths := [], results := [] }).results)

-- ─────────────────────────────────────────────────────────────────────
-- smurf_detector.py
-- ─────────────────────────────────────────────────────────────────────

/-- Structurally recursive integer square root (so that concrete
evaluation reduces inside the kernel); agrees with `Nat.sqrt`. -/
def natSqrtLinear (n : ℕ) : ℕ :=
  (List.range (n + 1)).foldl (fun acc k => if k * k ≤ n then k else acc) 0

/-- Models `math.sqrt` on the rationals: exact on perfect squares (the
only case any proof below depends on), an integer-square-root
approximation elsewhere. -/
def fsqrt (q : ℚ) : ℚ :=
  (natSqrtLinear q.num.toNat : ℚ) / (natSqrtLinear q.den : ℚ)

/-- Embeds `smurf_detector._variance_ratio`. -/
def variance_ratio (amounts : List ℚ) : ℚ :=
  if amounts.length < 2 then 0
  else
    let mean := amounts.sum / (amounts.length : ℚ)
    if mean = 0 then 0
    else
      let variance := (amounts.map (fun a => (a - mean) ^ 2)).sum / (amounts.length : ℚ)
      fsqrt variance / mean

/-- The counterparty of a hub transaction
(`receiver` for fan-out, `sender` for fan-in). -/
def smurfCp (direction : String) (t : Transaction) : String :=
  if direction = "fan_out" then t.receiver else t.sender

/-- Timestamp-ascending relation used to sort a hub's transactions. -/
def txTsLe (a b : Transaction) : Prop := a.timestamp ≤ b.timestamp

instance : DecidableRel txTsLe := fun a b =>
  inferInstanceAs (Decidable (a.timestamp ≤ b.timestamp))

instance : IsTotal Transaction txTsLe := ⟨fun a b => le_total a.timestamp b.timestamp⟩

instance : IsTrans Transaction txTsLe := ⟨fun _ _ _ h₁ h₂ => le_trans h₁ h₂⟩

/-- Embeds the `while` expansion of the right pointer in
`smurf_detector._best_sliding_window`.  The multiset
`current_cp_counts` (a counterparty ↦ count dict) is modelled by the list
of window counterparties with multiplicity; the dict's key count is the
list's `dedup` length.  Fuelled; fuel `txs.length` never runs out since
`right` is bounded by it. -/
def expandFan (txs : List Transaction) (direction : String) (leftTs : ℚ) :
    ℕ → ℕ → List String → ℕ × List String
  | 0, right, cps => (right, cps)
  | fuel + 1, right, cps =>
    if right < txs.length ∧ (txs.getD right default).timestamp - leftTs ≤ 72 * 3600 then
      expandFan txs direction leftTs fuel (right + 1)
        (cps ++ [smurfCp direction (txs.getD right default)])
    else (right, cps)

/-- One iteration (one position of the `left` pointer) of the two-pointer
loop of `smurf_detector._best_sliding_window`: expand the right pointer,
compare the distinct-counterparty count of the current window against the
best so far (strictly), then drop the left transaction's counterparty. -/
def windStep (txs : List Transaction) (direction : String)
    (st : ℕ × List String × Option (List Transaction × List String))
    (left : ℕ) : ℕ × List String × Option (List Transaction × List String) :=
  ((expandFan txs direction (txs.getD left default).timestamp txs.length
      st.1 st.2.1).1,
   ((expandFan txs direction (txs.getD left default).timestamp txs.length
      st.1 st.2.1).2).erase (smurfCp direction (txs.getD left default)),
   if 10 ≤ ((expandFan txs direction (txs.getD left default).timestamp
        txs.length st.1 st.2.1).2).dedup.length ∧
       (match st.2.2 with
        | none => 0
        | some wc => wc.2.length) <
         ((expandFan txs direction (txs.getD left default).timestamp
           txs.length st.1 st.2.1).2).dedup.length then
     some ((txs.drop left).take ((expandFan txs direction
         (txs.getD left default).timestamp txs.length st.1 st.2.1).1 - left),
       ((expandFan txs direction (txs.getD left default).timestamp
         txs.length st.1 st.2.1).2).dedup)
   else st.2.2)

/-- Embeds `smurf_detector._best_sliding_window`. -/
def best_sliding_window (sorted_txs : List Transaction) (direction : String) :
    Option (List Transaction × List String) :=
  if sorted_txs = [] then none
  else ((List.range sorted_txs.length).foldl
    (windStep sorted_txs direction) (0, [], none)).2.2

/-- Embeds `smurf_detector._check_fan`. -/
def check_fan (hub : String) (txs : List Transaction) (direction : String) :
    Option RingRec :=
  if txs.length < 10 then none
  else
    let sorted_txs := txs.insertionSort txTsLe
    match best_sliding_window sorted_txs direction with
    | none => none
    | some (window_txs, counterparties) =>
      let diversity : ℚ :=
        if window_txs = [] then 0
        else (counterparties.length : ℚ) / (window_txs.length : ℚ)
      let amounts := window_txs.map (·.amount)
      let vr := variance_ratio amounts
      let dampened := decide (7/10 < diversity) || decide (1/2 < vr)
      some { pattern_type := "smurfing",
             members := hub :: sortedStrings counterparties,
             transactions := window_txs,
             hub := some hub,
             direction := some direction,
             counterparty_count := some counterparties.length,
             diversity_score := some (pyRound diversity 4),
             variance_ratio := some (pyRound vr 4),
             dampened := some dampened }

/-- Embeds `smurf_detector.detect_smurfing` (including the `checked` set,
which never skips anything since the iteration is over the distinct
sorted nodes). -/
def detect_smurfing (g : GraphData) : List RingRec :=
  ((sortedStrings g.all_nodes).foldl
    (fun (st : List RingRec × List String) node =>
      if node ∈ st.2 then st
      else
        let r1 := match check_fan node (aget g.adj_list node []) "fan_out" with
          | some r => st.1 ++ [r]
          | none => st.1
        let r2 := match check_fan node (aget g.reverse_adj_list node []) "fan_in" with
          | some r => r1 ++ [r]
          | none => r1
        (r2, st.2 ++ [node])) ([], [])).1

-- ─────────────────────────────────────────────────────────────────────
-- confidence_engine.py
-- ─────────────────────────────────────────────────────────────────────

/-- Embeds `confidence_engine._temporal_score`. -/
def temporal_score (r : RingRec) : ℚ :=
  if r.transactions = [] then 1
  else
    let span_hours := (listMaxQ (r.transactions.map (·.timestamp)) -
      listMinQ (r.transactions.map (·.timestamp))) / 3600
    max 0 (1 - span_hours / 72)

/-- Embeds `confidence_engine._amount_score` (the stored `amount_ratio`
is used when the key is present, otherwise the ratio is recomputed from
the ring's transactions). -/
def amount_score (r : RingRec) : ℚ :=
  match r.amount_ratio with
  | some ratio => max 0 (1 - (ratio - 1))
  | none =>
    if r.transactions = [] then 1
    else
      let amounts := r.transactions.map (·.amount)
      if listMinQ amounts = 0 then 0
      else max 0 (1 - (listMaxQ amounts / listMinQ amounts - 1))

/-- Embeds `confidence_engine._tightness_score` (the stored
`tightness_score` is used when the key is present; otherwise
`members[1:-1]` is read as a chain of intermediates). -/
def tightness_score_engine (r : RingRec) (g : GraphData) : ℚ :=
  match r.tightness_score with
  | some t => t
  | none =>
    if r.members.length ≤ 2 then 1
    else
      let intermediates := (r.members.drop 1).dropLast
      if intermediates = [] then 1
      else
        let total_deg : ℕ := intermediates.foldl (fun acc node =>
          acc + match alookup g.node_stats node with
                | some s => s.total_degree
                | none => 1) 0
        let avg_deg : ℚ := (total_deg : ℚ) / (intermediates.length : ℚ)
        if avg_deg = 0 then 1 else min 1 (1 / avg_deg)

/-- Embeds `confidence_engine.compute_structural_confidence`. -/
def compute_structural_confidence (r : RingRec) (g : GraphData) : ℚ :=
  pyRound (max 0 (min 1 (2/5 * temporal_score r + 3/10 * amount_score r +
    3/10 * tightness_score_engine r g))) 4

-- ─────────────────────────────────────────────────────────────────────
-- density_guard.py
-- ─────────────────────────────────────────────────────────────────────

/-- Embeds `density_guard.compute_density_adjustments`.  The neighbor set
is modelled as the `dedup` of the receiver/sender list (only its size and
its intersection size with the suspicious set are consumed). -/
def compute_density_adjustments (suspicious : List String) (g : GraphData) :
    List (String × ℚ) :=
  suspicious.foldl (fun adjustments account =>
    let neighbors := ((aget g.adj_list account []).map (·.receiver) ++
                      (aget g.reverse_adj_list account []).map (·.sender)).dedup
    if neighbors = [] then aset adjustments account (4/5)
    else
      let suspicious_neighbors := (neighbors.filter
        (fun x => decide (x ∈ suspicious))).length
      let density := (suspicious_neighbors : ℚ) / (neighbors.length : ℚ)
      if density < 3/10 then aset adjustments account (4/5)
      else aset adjustments account 1) []

-- ─────────────────────────────────────────────────────────────────────
-- scoring_engine.py
-- ─────────────────────────────────────────────────────────────────────

/-- The state built by step 1 of `run_scoring_pipeline` (ring-id
assignment, per-account pattern tags and ring memberships). -/
structure RingProcState where
  account_patterns : List (String × List String)
  account_rings : List (String × List String)
  all_rings : List RingRec
  ring_counter : ℕ
  deriving DecidableEq, Repr, Inhabited

/-- Zero-padded three-digit counter rendering, `f"RING_{n:03d}"`. -/
def pad3 (n : ℕ) : String :=
  if n < 10 then "00" ++ toString n
  else if n < 100 then "0" ++ toString n
  else toString n

/-- Embeds ring-id assignment. -/
def ringIdStr (n : ℕ) : String := "RING_" ++ pad3 n

/-- Models `account_patterns[a].add(t)` on a `defaultdict(set)` (the set
is the duplicate-free list of tags in insertion order). -/
def addPatternTag (m : List (String × List String)) (a t : String) :
    List (String × List String) :=
  let cur := aget m a []
  aset m a (if t ∈ cur then cur else cur ++ [t])

/-- Models `account_rings[a].append(rid)` on a `defaultdict(list)`. -/
def addAccountRing (m : List (String × List String)) (a rid : String) :
    List (String × List String) :=
  aset m a (aget m a [] ++ [rid])

/-- The processed ring every loop of `run_scoring_pipeline` step 1
appends to `all_rings`: id assigned, structural confidence computed and
stored. -/
def procRing (g : GraphData) (rid : String) (r : RingRec) : RingRec :=
  { { r with ring_id := some rid } with
    structural_confidence := some (compute_structural_confidence
      { r with ring_id := some rid } g) }

/-- One iteration of the cycle-ring loop of `run_scoring_pipeline`
step 1. -/
def cycleRingStep (g : GraphData) (st : RingProcState) (ring : RingRec) :
    RingProcState :=
  { account_patterns := ring.members.foldl (fun m member =>
      addPatternTag (addPatternTag m member "cycle") member
        ("cycle_length_" ++ toString (ring.cycle_length.getD 0)))
      st.account_patterns,
    account_rings := ring.members.foldl (fun m member =>
      addAccountRing m member (ringIdStr (st.ring_counter + 1)))
      st.account_rings,
    all_rings := st.all_rings ++
      [procRing g (ringIdStr (st.ring_counter + 1)) ring],
    ring_counter := st.ring_counter + 1 }

/-- The cycle-ring loop of `run_scoring_pipeline` step 1. -/
def processCycleRings (g : GraphData) (st : RingProcState)
    (rings : List RingRec) : RingProcState :=
  rings.foldl (cycleRingStep g) st

/-- One iteration of the smurf-ring loop of `run_scoring_pipeline`
step 1. -/
def smurfRingStep (g : GraphData) (st : RingProcState) (ring : RingRec) :
    RingProcState :=
  { account_patterns := ring.members.foldl (fun m member =>
      addPatternTag m member "smurfing") st.account_patterns,
    account_rings := ring.members.foldl (fun m member =>
      addAccountRing m member (ringIdStr (st.ring_counter + 1)))
      st.account_rings,
    all_rings := st.all_rings ++
      [procRing g (ringIdStr (st.ring_counter + 1)) ring],
    ring_counter := st.ring_counter + 1 }

/-- The smurf-ring loop of `run_scoring_pipeline` step 1. -/
def processSmurfRings (g : GraphData) (st : RingProcState)
    (rings : List RingRec) : RingProcState :=
  rings.foldl (smurfRingStep g) st

/-- One iteration of the shell-ring loop of `run_scoring_pipeline`
step 1. -/
def shellRingStep (g : GraphData) (st : RingProcState) (ring : RingRec) :
    RingProcState :=
  { account_patterns := ring.members.foldl (fun m member =>
      addPatternTag m member "shell") st.account_patterns,
    account_rings := ring.members.foldl (fun m member =>
      addAccountRing m member (ringIdStr (st.ring_counter + 1)))
      st.account_rings,
    all_rings := st.all_rings ++
      [procRing g (ringIdStr (st.ring_counter + 1)) ring],
    ring_counter := st.ring_counter + 1 }

/-- The shell-ring loop of `run_scoring_pipeline` step 1. -/
def processShellRings (g : GraphData) (st : RingProcState)
    (rings : List RingRec) : RingProcState :=
  rings.foldl (shellRingStep g) st

/-- Step 1 of `run_scoring_pipeline`: the three ring loops in order
B (cycles), C (smurfs), D (shells). -/
def processAllRings (g : GraphData)
    (cycle_rings smurf_rings shell_rings : List RingRec) : RingProcState :=
  processShellRings g
    (processSmurfRings g
      (processCycleRings g
        { account_patterns := [], account_rings := [], all_rings := [],
          ring_counter := 0 } cycle_rings)
      smurf_rings)
    shell_rings

/-- `suspicious_set = set(account_patterns.keys())`, as the insertion-
ordered duplicate-free key list. -/
def suspiciousSet (st : RingProcState) : List String := akeys st.account_patterns

/-- Embeds the `while` expansion of the right pointer in
`scoring_engine._velocity_check`. -/
def expandRight (ts : List ℚ) (leftTs delta : ℚ) : ℕ → ℕ → ℕ
  | 0, right => right
  | fuel + 1, right =>
    if right < ts.length ∧ ts.getD right 0 - leftTs ≤ delta then
      expandRight ts leftTs delta fuel (right + 1)
    else right

/-- Per-node body of `scoring_engine._velocity_check`: more than 5
combined transactions in some 24-hour window. -/
def velocityFlagged (g : GraphData) (node : String) : Bool :=
  let txs := aget g.adj_list node [] ++ aget g.reverse_adj_list node []
  if txs.length ≤ 5 then false
  else
    let timestamps := (txs.map (·.timestamp)).insertionSort (· ≤ ·)
    let n := timestamps.length
    ((List.range n).foldl (fun (st : ℕ × Bool) left =>
      if st.2 then st
      else
        let right := expandRight timestamps (timestamps.getD left 0)
          (24 * 3600) n st.1
        (right, decide (5 < right - left))) (0, false)).2

/-- Embeds `scoring_engine._velocity_check`. -/
def velocity_check (g : GraphData) : List String :=
  g.all_nodes.filter (velocityFlagged g)

/-- Embeds the `distinct_types` set of `run_scoring_pipeline` step 3. -/
def distinctTypes (patterns : List String) : List String :=
  patterns.foldl (fun d p =>
    if pyStartsWith p "cycle" then (if "cycle" ∈ d then d else d ++ ["cycle"])
    else if p = "smurfing" then (if "smurfing" ∈ d then d else d ++ ["smurfing"])
    else if p = "shell" then (if "shell" ∈ d then d else d ++ ["shell"])
    else d) []

/-- Embeds the per-account base-weight and interaction-bonus computation
of `run_scoring_pipeline` step 3. -/
def rawScore (patterns : List String) (vel : Bool) : ℚ :=
  let base : ℚ :=
    (if "cycle" ∈ patterns ∨ patterns.any (fun p => pyStartsWith p "cycle_length_") then 40 else 0)
    + (if "smurfing" ∈ patterns then 30 else 0)
    + (if "shell" ∈ patterns then 25 else 0)
    + (if vel then 10 else 0)
  let d := distinctTypes patterns
  base
    + (if 1 < d.length then 10 * (d.length : ℚ) else 0)
    + (if "cycle" ∈ d ∧ "smurfing" ∈ d then 10 else 0)
    + (if "cycle" ∈ d ∧ "shell" ∈ d then 8 else 0)

/-- The `raw_scores` dict after step 3 (base weights + bonuses). -/
def rawScoresBase (g : GraphData) (st : RingProcState) : List (String × ℚ) :=
  let vel := velocity_check g
  (suspiciousSet st).foldl (fun m account =>
    aset m account (rawScore (aget st.account_patterns account [])
      (decide (account ∈ vel)))) []

/-- `r["ring_id"] in ring_ids` for a processed ring. -/
def RingRec.ring_in_id_list (r : RingRec) (ring_ids : List String) : Prop :=
  r.ring_id.getD "" ∈ ring_ids

instance (ring_ids : List String) :
    DecidablePred (fun r : RingRec => r.ring_in_id_list ring_ids) := fun r =>
  inferInstanceAs (Decidable (r.ring_id.getD "" ∈ ring_ids))

/-- The `confidences` list of step 4: the stored confidences of the
rings whose id is in the account's ring list. -/
def confList (all_rings : List RingRec) (ring_ids : List String) : List ℚ :=
  (all_rings.filter (fun r => decide (r.ring_in_id_list ring_ids))).map
    (fun r => r.structural_confidence.getD (1/2))

/-- Embeds the per-account average structural confidence of step 4
(0.5 when the account matches no ring). -/
def accountConfidence (all_rings : List RingRec) (ring_ids : List String) : ℚ :=
  if confList all_rings ring_ids = [] then 1/2
  else (confList all_rings ring_ids).sum /
    ((confList all_rings ring_ids).length : ℚ)

/-- The scores dict after step 4 (confidence adjustment). -/
def scoresAfterConfidence (g : GraphData) (st : RingProcState) :
    List (String × ℚ) :=
  let raw := rawScoresBase g st
  (suspiciousSet st).foldl (fun m account =>
    aset m account (aget raw account 0 *
      (4/5 + 2/5 * accountConfidence st.all_rings
        (aget st.account_rings account [])))) raw

/-- The scores dict after step 5 (density adjustment); these are the
`raw_score` values consumed by ring risk computation. -/
def scoresAfterDensity (g : GraphData) (st : RingProcState) :
    List (String × ℚ) :=
  let scores := scoresAfterConfidence g st
  let density_adj := compute_density_adjustments (suspiciousSet st) g
  (suspiciousSet st).foldl (fun m account =>
    aset m account (aget scores account 0 * aget density_adj account 1)) scores

/-- Models `bisect.bisect_right` on an ascending list: the insertion
point after every element `≤ x`. -/
def bisect_right (l : List ℚ) (x : ℚ) : ℕ :=
  (l.takeWhile (fun y => decide (y ≤ x))).length

/-- The per-account body of step 6 (percentile normalization, cap and
rounding). -/
def finalScoreOf (scores : List (String × ℚ)) (sorted_scores : List ℚ)
    (n : ℕ) (account : String) : ℚ :=
  min 100 (pyRound (aget scores account 0 *
    (max (17/20) (min (23/20) (17/20 + 3/10 *
      (if 0 < n then
        ((bisect_right sorted_scores (aget scores account 0) : ℚ)) / (n : ℚ)
      else 1/2))))) 1)

/-- The `final_scores` dict after step 6. -/
def finalScores (g : GraphData) (st : RingProcState) : List (String × ℚ) :=
  let scores := scoresAfterDensity g st
  let sorted_scores := (scores.map (·.2)).insertionSort (· ≤ ·)
  let n := sorted_scores.length
  (suspiciousSet st).foldl (fun m account =>
    aset m account (finalScoreOf scores sorted_scores n account)) []

/-- One entry of the `suspicious_accounts` output list. -/
structure AccountOut where
  account_id : String
  suspicion_score : ℚ
  detected_patterns : List String
  ring_id : String
  deriving DecidableEq, Repr, Inhabited

/-- One entry of the `fraud_rings` output list. -/
structure RingOut where
  ring_id : String
  member_accounts : List String
  pattern_type : String
  risk_score : ℚ
  deriving DecidableEq, Repr, Inhabited

/-- The `summary` output record. -/
structure Summary where
  total_accounts_analyzed : ℕ
  suspicious_accounts_flagged : ℕ
  fraud_rings_detected : ℕ
  deriving DecidableEq, Repr, Inhabited

/-- The full return value of `run_scoring_pipeline` (`all_rings` models
the internal `_all_rings` entry). -/
structure ScoringResult where
  suspicious_accounts : List AccountOut
  fraud_rings : List RingOut
  summary : Summary
  all_rings : List RingRec
  deriving DecidableEq, Repr, Inhabited

/-- Ordering of suspicious accounts, the Python sort key
`(-final_scores[a], a)`. -/
def accountOrd (final : List (String × ℚ)) (a b : String) : Prop :=
  aget final b 0 < aget final a 0 ∨
    (aget final a 0 = aget final b 0 ∧ strLe a b)

instance (final : List (String × ℚ)) : DecidableRel (accountOrd final) :=
  fun a b => inferInstanceAs (Decidable
    (aget final b 0 < aget final a 0 ∨
      (aget final a 0 = aget final b 0 ∧ strLe a b)))

instance (final : List (String × ℚ)) : IsTotal String (accountOrd final) :=
  ⟨fun a b => by
    rcases lt_trichotomy (aget final a 0) (aget final b 0) with h | h | h
    · exact Or.inr (Or.inl h)
    · rcases le_total a.data b.data with hab | hab
      · exact Or.inl (Or.inr ⟨h, hab⟩)
      · exact Or.inr (Or.inr ⟨h.symm, hab⟩)
    · exact Or.inl (Or.inl h)⟩

instance (final : List (String × ℚ)) : IsTrans String (accountOrd final) :=
  ⟨fun _ _ _ hab hbc => by
    rcases hab with h₁ | ⟨e₁, l₁⟩
    · rcases hbc with h₂ | ⟨e₂, _⟩
      · exact Or.inl (h₂.trans h₁)
      · exact Or.inl (e₂ ▸ h₁)
    · rcases hbc with h₂ | ⟨e₂, l₂⟩
      · exact Or.inl (e₁ ▸ h₂)
      · exact Or.inr ⟨e₁.trans e₂, l₁.trans l₂⟩⟩

/-- Ordering of fraud rings, the Python sort key
`(-risk_score, ring_id)`. -/
def ringOutOrd (a b : RingOut) : Prop :=
  b.risk_score < a.risk_score ∨
    (a.risk_score = b.risk_score ∧ strLe a.ring_id b.ring_id)

instance : DecidableRel ringOutOrd :=
  fun a b => inferInstanceAs (Decidable (b.risk_score < a.risk_score ∨
    (a.risk_score = b.risk_score ∧ strLe a.ring_id b.ring_id)))

instance : IsTotal RingOut ringOutOrd :=
  ⟨fun a b => by
    rcases lt_trichotomy a.risk_score b.risk_score with h | h | h
    · exact Or.inr (Or.inl h)
    · rcases le_total a.ring_id.data b.ring_id.data with hab | hab
      · exact Or.inl (Or.inr ⟨h, hab⟩)
      · exact Or.inr (Or.inr ⟨h.symm, hab⟩)
    · exact Or.inl (Or.inl h)⟩

instance : IsTrans RingOut ringOutOrd :=
  ⟨fun _ _ _ hab hbc => by
    rcases hab with h₁ | ⟨e₁, l₁⟩
    · rcases hbc with h₂ | ⟨e₂, _⟩
      · exact Or.inl (h₂.trans h₁)
      · exact Or.inl (e₂ ▸ h₁)
    · rcases hbc with h₂ | ⟨e₂, l₂⟩
      · exact Or.inl (e₁ ▸ h₂)
      · exact Or.inr ⟨e₁.trans e₂, l₁.trans l₂⟩⟩

/-- The suspicious-account record step 7 emits for one account. -/
def mkAccountOut (st : RingProcState) (final : List (String × ℚ))
    (account : String) : AccountOut :=
  { account_id := account,
    suspicion_score := aget final account 0,
    detected_patterns := sortedStrings (aget st.account_patterns account []),
    ring_id := (sortedStrings (aget st.account_rings account []).dedup).headD "" }

/-- Step 7's `suspicious_accounts` construction (the consumers of the
sorted suspicious account list). -/
def build_suspicious (st : RingProcState) (final : List (String × ℚ))
    (suspicious_sorted : List String) : List AccountOut :=
  suspicious_sorted.map (mkAccountOut st final)

/-- The fraud-ring record step 7 emits for one processed ring. -/
def mkRingOut (raw : List (String × ℚ)) (ring : RingRec) : RingOut :=
  { ring_id := ring.ring_id.getD "",
    member_accounts := sortedStrings ring.members,
    pattern_type := ring.pattern_type,
    risk_score := pyRound (min 100
      ((if ring.members.map (fun m => aget raw m 0) = [] then 0
        else (ring.members.map (fun m => aget raw m 0)).sum /
          ((ring.members.map (fun m => aget raw m 0)).length : ℚ)) *
        ring.structural_confidence.getD (1/2))) 1 }

/-- Step 7's `fraud_rings` construction; `raw` is the scores dict after
step 5 (density), as in the source. -/
def build_fraud_rings (raw : List (String × ℚ)) (all_rings : List RingRec) :
    List RingOut :=
  (all_rings.map (mkRingOut raw)).insertionSort ringOutOrd

/-- Embeds `scoring_engine._empty_result`. -/
def empty_result (g : GraphData) : ScoringResult :=
  { suspicious_accounts := [], fraud_rings := [],
    summary := { total_accounts_analyzed := g.all_nodes.length,
                 suspicious_accounts_flagged := 0,
                 fraud_rings_detected := 0 },
    all_rings := [] }

/-- The `suspicious_accounts` list of the non-empty branch. -/
def resultAccounts (g : GraphData) (st : RingProcState) : List AccountOut :=
  build_suspicious st (finalScores g st)
    ((suspiciousSet st).insertionSort (accountOrd (finalScores g st)))

/-- The `fraud_rings` list of the non-empty branch. -/
def resultRings (g : GraphData) (st : RingProcState) : List RingOut :=
  build_fraud_rings (scoresAfterDensity g st) st.all_rings

/-- The non-empty branch of `run_scoring_pipeline` (steps 6-7 plus the
summary), as a function of the processed ring state. -/
def buildResult (g : GraphData) (st : RingProcState) : ScoringResult :=
  { suspicious_accounts := resultAccounts g st,
    fraud_rings := resultRings g st,
    summary := { total_accounts_analyzed := g.all_nodes.length,
                 suspicious_accounts_flagged := (resultAccounts g st).length,
                 fraud_rings_detected := (resultRings g st).length },
    all_rings := st.all_rings }

/-- Embeds `scoring_engine.run_scoring_pipeline`. -/
def run_scoring_pipeline (g : GraphData)
    (cycle_rings smurf_rings shell_rings : List RingRec) : ScoringResult :=
  if suspiciousSet (processAllRings g cycle_rings smurf_rings shell_rings) = []
  then empty_result g
  else buildResult g (processAllRings g cycle_rings smurf_rings shell_rings)

-- ─────────────────────────────────────────────────────────────────────
-- Specification-side definitions (used to state the claims)
-- ─────────────────────────────────────────────────────────────────────

/-- `clamp(x, lo, hi)`. -/
def clampQ (x lo hi : ℚ) : ℚ := max lo (min hi x)

/-- The percentile multiplier as the specification words it:
`clamp(0.8 + 0.3 * percentile, 0.85, 1.15)`.  (Compare with the code's
`max(0.85, min(1.15, 0.85 + 0.3 * percentile))` inside `finalScores`.) -/
def spec_percentile_multiplier (percentile : ℚ) : ℚ :=
  clampQ (4/5 + 3/10 * percentile) (17/20) (23/20)

/-- A list headed by its strict minimum (every later element is strictly
greater than the head). -/
def minFronted : List String → Prop
  | [] => False
  | h :: t => ∀ x ∈ t, strLt h x

/-- `x` occurs as a contiguous subsequence of `l`. -/
def ContigSub (x l : List String) : Prop := ∃ p s, l = p ++ x ++ s

/-- The 72-hour window anchored at index `l` of a timestamp-sorted
transaction list (specification-side description of the two-pointer
window). -/
def windowAt (txs : List Transaction) (l : ℕ) : List Transaction :=
  (txs.drop l).takeWhile (fun t =>
    decide (t.timestamp - (txs.getD l default).timestamp ≤ 72 * 3600))

/-- The distinct-counterparty count of the window anchored at `l`. -/
def distinctCpsAt (txs : List Transaction) (direction : String) (l : ℕ) : ℕ :=
  (((windowAt txs l).map (smurfCp direction)).dedup).length

/-- The counterparties (with multiplicity, in slice order) of the slice
`txs[k:r]` of the hub's sorted transaction list. -/
def sliceCps (txs : List Transaction) (direction : String) (k r : ℕ) :
    List String :=
  ((txs.drop k).take (r - k)).map (smurfCp direction)

/-- What the running best of the two-pointer loop looks like after the
left positions `0..k-1` have been processed: `none` while no window has
reached 10 distinct counterparties, otherwise the window of the earliest
left whose distinct-counterparty count no other processed window exceeds
(a tie never replaces it). -/
def WindBestSpec (txs : List Transaction) (direction : String) (k : ℕ) :
    Option (List Transaction × List String) → Prop
  | none => ∀ j < k, distinctCpsAt txs direction j < 10
  | some wc => ∃ l, l < k ∧ wc.1 = windowAt txs l ∧
      wc.2 = ((windowAt txs l).map (smurfCp direction)).dedup ∧
      10 ≤ distinctCpsAt txs direction l ∧
      (∀ j < k, distinctCpsAt txs direction j ≤
        distinctCpsAt txs direction l) ∧
      (∀ j < l, distinctCpsAt txs direction j <
        distinctCpsAt txs direction l)

/-- Invariant of the two-pointer loop at entry of iteration `k`: the
right pointer sits between `k` and the end of the window anchored at
`k`, the counterparty multiset is exactly that of the slice
`txs[k:right]`, and the best so far satisfies `WindBestSpec`. -/
def WindInv (txs : List Transaction) (direction : String) (k : ℕ)
    (st : ℕ × List String × Option (List Transaction × List String)) :
    Prop :=
  k ≤ st.1 ∧ st.1 ≤ k + (windowAt txs k).length ∧
  st.2.1 = sliceCps txs direction k st.1 ∧
  WindBestSpec txs direction k st.2.2

-- ─────────────────────────────────────────────────────────────────────
-- Concrete inputs used by witnesses and counterexamples
-- ─────────────────────────────────────────────────────────────────────

/-- Transaction literal helper. -/
def mkTx (id s r : String) (amt ts : ℚ) : Transaction :=
  { transaction_id := id, sender := s, receiver := r, amount := amt,
    timestamp := ts }

/-- Scenario S1 of the specification: a pure triangle cycle
A → B → C → A, amounts 100, 6 hours apart. -/
def txT1 : Transaction := mkTx "T1" "A" "B" 100 0
def txT2 : Transaction := mkTx "T2" "B" "C" 100 21600
def txT3 : Transaction := mkTx "T3" "C" "A" 100 43200
def gTriangle : GraphData := build_graph [txT1, txT2, txT3]

/-- The one cycle ring the cycle detector finds on `gTriangle` (verified
below by evaluation). -/
def ringTriangle : RingRec :=
  { pattern_type := "cycle", members := ["A", "B", "C"],
    transactions := [txT1, txT2, txT3], cycle_length := some 3,
    time_span_hours := some 12, amount_ratio := some 1 }

/-- A smurfing scenario: hub H fans out to ten counterparties an hour
apart, and one extra transfer C01 → C02 raises two intermediate
degrees. -/
def smurfTxs : List Transaction :=
  [ mkTx "S01" "H" "C01" 100 0,
    mkTx "S02" "H" "C02" 100 3600,
    mkTx "S03" "H" "C03" 100 7200,
    mkTx "S04" "H" "C04" 100 10800,
    mkTx "S05" "H" "C05" 100 14400,
    mkTx "S06" "H" "C06" 100 18000,
    mkTx "S07" "H" "C07" 100 21600,
    mkTx "S08" "H" "C08" 100 25200,
    mkTx "S09" "H" "C09" 100 28800,
    mkTx "S10" "H" "C10" 100 32400,
    mkTx "S11" "C01" "C02" 100 3600 ]

def gSmurf : GraphData := build_graph smurfTxs

/-- The ten fan-out transactions of hub `H`, already timestamp-sorted. -/
def hubTxs : List Transaction := smurfTxs.take 10

/-- Their distinct counterparties, in first-seen order. -/
def hubCps : List String :=
  ["C01", "C02", "C03", "C04", "C05", "C06", "C07", "C08", "C09", "C10"]

/-- A self-loop transaction (sender = receiver), for the graph-builder
claim. -/
def txSelf : Transaction := mkTx "TS" "X" "X" 50 1000

/-- The empty graph state the build fold starts from. -/
def gEmpty : GraphData :=
  { transactions := [], adj_list := [], reverse_adj_list := [],
    node_stats := [], all_nodes := [] }

/-- A generic well-formed CSV row result. -/
def txRow : Transaction := mkTx "R" "P" "Q" 1 0

/-- The output record the pipeline produces for account `A` on the
triangle input (verified below by evaluation). -/
def accA : AccountOut :=
  { account_id := "A", suspicion_score := 256/5,
    detected_patterns := ["cycle", "cycle_length_3"], ring_id := "RING_001" }

/-- The pattern tags the scoring engine can attach to an account
(step 2); the velocity flag is not among them. -/
def PatternTag (t : String) : Prop :=
  t = "cycle" ∨ t = "smurfing" ∨ t = "shell" ∨
    ∃ n : ℕ, t = "cycle_length_" ++ toString n

/-- Forget the `dampened` flag of a smurf ring. -/
def clearDampened (r : RingRec) : RingRec := { r with dampened := none }

/-- Forget the `dampened` flag of every processed ring of a scoring
state. -/
def stateClearD (st : RingProcState) : RingProcState :=
  { st with all_rings := st.all_rings.map clearDampened }

/-- A smurf ring with the dampened flag set. -/
def ringDampT : RingRec :=
  { pattern_type := "smurfing", members := ["H", "C01"],
    transactions := [], hub := some "H", dampened := some true }

/-- The same smurf ring with the dampened flag cleared. -/
def ringDampF : RingRec :=
  { pattern_type := "smurfing", members := ["H", "C01"],
    transactions := [], hub := some "H", dampened := some false }

/-- Neither ring's member sequence is a contiguous subsequence of the
other's. -/
def RingNonSub (a b : RingRec) : Prop :=
  ¬ ContigSub a.members b.members ∧ ¬ ContigSub b.members a.members

/-- The invariant C6 needs of the cycle detector state: every emitted
ring is min-fronted and registered in `seen_canonical`, and member
tuples are pairwise distinct. -/
def CycStateOK (st : CycState) : Prop :=
  (∀ r ∈ st.results, minFronted r.members ∧ r.members ∈ st.seen_canonical) ∧
  st.results.Pairwise (fun a b => a.members ≠ b.members)

/-- The shape claim C4 makes of every cycle ring: consistent length
fields within bounds, time span ≤ 72 h, amount ratio ≤ 1.25. -/
def CycleRingOK (r : RingRec) : Prop :=
  r.pattern_type = "cycle" ∧
  r.cycle_length = some r.members.length ∧
  3 ≤ r.members.length ∧ r.members.length ≤ 5 ∧
  time_span_hours r.transactions ≤ 72 ∧
  listMinQ (r.transactions.map (·.amount)) ≠ 0 ∧
  listMaxQ (r.transactions.map (·.amount)) /
    listMinQ (r.transactions.map (·.amount)) ≤ 5/4

-- ─────────────────────────────────────────────────────────────────────
-- Generic helper lemmas
-- ─────────────────────────────────────────────────────────────────────

theorem foldl_preserve {α β : Type} (Q : β → Prop) {f : β → α → β}
    (hstep : ∀ b a, Q b → Q (f b a)) :
    ∀ (l : List α) (b : β), Q b → Q (l.foldl f b) := by
  intro l
  induction l with
  | nil => intro b hb; exact hb
  | cons a rest ih => intro b hb; exact ih (f b a) (hstep b a hb)

theorem aget_aset_self {α : Type} (m : List (String × α)) (k : String) (v d : α) :
    aget (aset m k v) k d = v := by
  induction m with
  | nil => simp [aget, aset]
  | cons p rest ih =>
    obtain ⟨k', v'⟩ := p
    by_cases h : k' = k
    · simp [aget, aset, h]
    · simp [aget, aset, h, ih]

theorem aget_aset_ne {α : Type} (m : List (String × α)) {k k' : String}
    (v d : α) (h : k ≠ k') : aget (aset m k v) k' d = aget m k' d := by
  induction m with
  | nil => simp [aget, aset, h]
  | cons p rest ih =>
    obtain ⟨k₀, v₀⟩ := p
    by_cases h₀ : k₀ = k
    · subst h₀; simp [aget, aset, h, Ne.symm h]
    · by_cases h₁ : k₀ = k'
      · simp [aget, aset, h₀, h₁, Ne.symm h]
      · simp [aget, aset, h₀, h₁, ih]

theorem alookup_aset_self {α : Type} (m : List (String × α)) (k : String) (v : α) :
    alookup (aset m k v) k = some v := by
  induction m with
  | nil => simp [alookup, aset]
  | cons p rest ih =>
    obtain ⟨k', v'⟩ := p
    by_cases h : k' = k
    · simp [alookup, aset, h]
    · simp [alookup, aset, h, ih]

theorem akeys_aset {α : Type} (m : List (String × α)) (k : String) (v : α) :
    akeys (aset m k v) = if k ∈ akeys m then akeys m else akeys m ++ [k] := by
  induction m with
  | nil => simp [akeys, aset]
  | cons p rest ih =>
    obtain ⟨k', v'⟩ := p
    by_cases h : k' = k
    · subst h; simp [akeys, aset]
    · have hne : ¬ k = k' := fun hh => h hh.symm
      simp only [akeys, aset, if_neg h, List.map_cons, List.mem_cons, hne, false_or]
      rw [show List.map (fun x => x.1) (aset rest k v) = akeys (aset rest k v) from rfl,
        ih]
      by_cases hmem : k ∈ List.map (fun x => x.1) rest
      · rw [if_pos hmem, if_pos (show k ∈ akeys rest from hmem)]
        rfl
      · rw [if_neg hmem, if_neg (show k ∉ akeys rest from hmem)]
        rfl

/-- Membership in keys is preserved or extended by `aset`. -/
theorem mem_akeys_aset {α : Type} (m : List (String × α)) (k a : String) (v : α) :
    a ∈ akeys (aset m k v) ↔ a ∈ akeys m ∨ a = k := by
  rw [akeys_aset]
  by_cases h : k ∈ akeys m
  · rw [if_pos h]
    exact ⟨fun hh => Or.inl hh, fun hh => hh.elim id (fun e => e ▸ h)⟩
  · rw [if_neg h]
    simp [List.mem_append]


-- ─────────────────────────────────────────────────────────────────────
-- C9: self-loop transactions are double-counted by the graph builder
-- ─────────────────────────────────────────────────────────────────────

/-- C9: for a transaction whose sender equals its receiver, one build
step increments both `in_degree` and `out_degree` of that node (so
`total_degree` rises by 2), adds the amount to both totals, appends the
timestamp twice, and appends the transaction to both `adj_list[node]`
and `reverse_adj_list[node]`. -/
theorem c9_self_loop_double_counts (g : GraphData) (tx : Transaction)
    (h : tx.sender = tx.receiver) :
    (aget (buildStep g tx).node_stats tx.sender default).in_degree =
      (aget g.node_stats tx.sender default).in_degree + 1 ∧
    (aget (buildStep g tx).node_stats tx.sender default).out_degree =
      (aget g.node_stats tx.sender default).out_degree + 1 ∧
    (aget (buildStep g tx).node_stats tx.sender default).total_degree =
      (aget g.node_stats tx.sender default).total_degree + 2 ∧
    (aget (buildStep g tx).node_stats tx.sender default).total_in_amount =
      (aget g.node_stats tx.sender default).total_in_amount + tx.amount ∧
    (aget (buildStep g tx).node_stats tx.sender default).total_out_amount =
      (aget g.node_stats tx.sender default).total_out_amount + tx.amount ∧
    (aget (buildStep g tx).node_stats tx.sender default).timestamps =
      (aget g.node_stats tx.sender default).timestamps ++ [tx.timestamp, tx.timestamp] ∧
    aget (buildStep g tx).adj_list tx.sender [] =
      aget g.adj_list tx.sender [] ++ [tx] ∧
    aget (buildStep g tx).reverse_adj_list tx.sender [] =
      aget g.reverse_adj_list tx.sender [] ++ [tx] := by
  have hr : tx.receiver = tx.sender := h.symm
  refine ⟨?_, ?_, ?_, ?_, ?_, ?_, ?_, ?_⟩ <;>
    simp [buildStep, hr, aget_aset_self, NodeStats.total_degree]
  omega

/-- Witness for C9 at a concrete self-loop transaction and the empty
graph state. -/
theorem c9_witness :
    txSelf.sender = txSelf.receiver ∧
    ((aget (buildStep gEmpty txSelf).node_stats txSelf.sender default).in_degree =
      (aget gEmpty.node_stats txSelf.sender default).in_degree + 1 ∧
    (aget (buildStep gEmpty txSelf).node_stats txSelf.sender default).out_degree =
      (aget gEmpty.node_stats txSelf.sender default).out_degree + 1 ∧
    (aget (buildStep gEmpty txSelf).node_stats txSelf.sender default).total_degree =
      (aget gEmpty.node_stats txSelf.sender default).total_degree + 2 ∧
    (aget (buildStep gEmpty txSelf).node_stats txSelf.sender default).total_in_amount =
      (aget gEmpty.node_stats txSelf.sender default).total_in_amount + txSelf.amount ∧
    (aget (buildStep gEmpty txSelf).node_stats txSelf.sender default).total_out_amount =
      (aget gEmpty.node_stats txSelf.sender default).total_out_amount + txSelf.amount ∧
    (aget (buildStep gEmpty txSelf).node_stats txSelf.sender default).timestamps =
      (aget gEmpty.node_stats txSelf.sender default).timestamps ++
        [txSelf.timestamp, txSelf.timestamp] ∧
    aget (buildStep gEmpty txSelf).adj_list txSelf.sender [] =
      aget gEmpty.adj_list txSelf.sender [] ++ [txSelf] ∧
    aget (buildStep gEmpty txSelf).reverse_adj_list txSelf.sender [] =
      aget gEmpty.reverse_adj_list txSelf.sender [] ++ [txSelf]) :=
  ⟨rfl, c9_self_loop_double_counts gEmpty txSelf rfl⟩

-- ─────────────────────────────────────────────────────────────────────
-- C3: the 10,000-row limit
-- ─────────────────────────────────────────────────────────────────────

theorem parse_rows_loop_replicate (tx : Transaction) :
    ∀ (n : ℕ) (acc : List Transaction), acc.length + n ≤ MAX_TRANSACTIONS →
    parse_rows_loop (List.replicate n (some tx)) acc =
      .ok (acc ++ List.replicate n tx) := by
  intro n
  induction n with
  | zero => intro acc h; simp [parse_rows_loop]
  | succ k ih =>
    intro acc h
    have hlt : ¬ MAX_TRANSACTIONS ≤ acc.length := by
      simp only [MAX_TRANSACTIONS] at h ⊢; omega
    rw [List.replicate_succ]
    rw [show parse_rows_loop (some tx :: List.replicate k (some tx)) acc =
        if MAX_TRANSACTIONS ≤ acc.length then .error .TooLarge
        else parse_rows_loop (List.replicate k (some tx)) (acc ++ [tx]) from rfl]
    rw [if_neg hlt, ih (acc ++ [tx]) (by simpa using by omega)]
    simp [List.replicate_succ, List.append_assoc]

theorem build_graph_transactions (txs : List Transaction) :
    (build_graph txs).transactions = txs := by
  have hfold : ∀ (l : List Transaction) (g : GraphData),
      (l.foldl buildStep g).transactions = g.transactions := by
    intro l
    induction l with
    | nil => intro g; rfl
    | cons t rest ih => intro g; rw [List.foldl_cons, ih]; rfl
  simpa [build_graph] using hfold txs _

theorem parse_csv_rows_of_loop_ok {rows : List (Option Transaction)}
    {txs : List Transaction} (h : parse_rows_loop rows [] = .ok txs)
    (hne : txs ≠ []) : parse_csv_rows rows = .ok (build_graph txs) := by
  unfold parse_csv_rows
  rw [h]
  simp [hne]

/-- C3 counterexample: a CSV whose accepted-row count reaches exactly
10,000 with no row after it parses successfully — `parse_csv` does not
fail with `TooLarge` there, refuting the claim that reaching 10,000
always fails. -/
theorem c3_counterexample :
    parse_csv_rows (List.replicate 10000 (some txRow)) =
      .ok (build_graph (List.replicate 10000 txRow)) ∧
    (build_graph (List.replicate 10000 txRow)).transactions.length = 10000 := by
  have hne : List.replicate 10000 txRow ≠ [] := by
    intro hcon
    have hlen := congrArg List.length hcon
    rw [List.length_replicate] at hlen
    exact absurd hlen (by norm_num)
  have hloop : parse_rows_loop (List.replicate 10000 (some txRow)) [] =
      .ok (List.replicate 10000 txRow) := by
    have h0 := parse_rows_loop_replicate txRow 10000 []
      (by simp [MAX_TRANSACTIONS])
    rwa [List.nil_append] at h0
  exact ⟨parse_csv_rows_of_loop_ok hloop hne,
    by rw [build_graph_transactions, List.length_replicate]⟩

theorem parse_rows_loop_ok_length :
    ∀ (rows : List (Option Transaction)) (acc txs : List Transaction),
    acc.length ≤ MAX_TRANSACTIONS → parse_rows_loop rows acc = .ok txs →
    txs.length ≤ MAX_TRANSACTIONS := by
  intro rows
  induction rows with
  | nil =>
    intro acc txs hlen hok
    simp only [parse_rows_loop, Except.ok.injEq] at hok
    exact hok ▸ hlen
  | cons row rest ih =>
    intro acc txs hlen hok
    by_cases hge : MAX_TRANSACTIONS ≤ acc.length
    · simp [parse_rows_loop, hge] at hok
    · cases row with
      | some tx =>
        simp only [parse_rows_loop, if_neg hge] at hok
        refine ih (acc ++ [tx]) txs ?_ hok
        simp only [List.length_append, List.length_cons, List.length_nil]
        omega
      | none =>
        simp only [parse_rows_loop, if_neg hge] at hok
        exact ih acc txs hlen hok

theorem parse_rows_loop_overflow :
    ∀ (rows : List (Option Transaction)) (acc : List Transaction),
    acc.length ≤ MAX_TRANSACTIONS →
    MAX_TRANSACTIONS < acc.length + (rows.filterMap id).length →
    parse_rows_loop rows acc = .error .TooLarge := by
  intro rows
  induction rows with
  | nil =>
    intro acc h1 h2
    simp only [List.filterMap_nil, List.length_nil] at h2
    omega
  | cons row rest ih =>
    intro acc h1 h2
    by_cases hge : MAX_TRANSACTIONS ≤ acc.length
    · simp [parse_rows_loop, hge]
    · cases row with
      | some tx =>
        simp only [parse_rows_loop, if_neg hge]
        have h3 : (List.filterMap id (some tx :: rest)).length =
            (List.filterMap id rest).length + 1 := by
          simp [List.filterMap_cons]
        rw [h3] at h2
        refine ih (acc ++ [tx]) ?_ ?_
        · simp only [List.length_append, List.length_cons, List.length_nil]
          omega
        · simp only [List.length_append, List.length_cons, List.length_nil]
          omega
      | none =>
        simp only [parse_rows_loop, if_neg hge]
        have h3 : (List.filterMap id (none :: rest) :
            List Transaction).length = (List.filterMap id rest).length := by
          simp [List.filterMap_cons]
        rw [h3] at h2
        exact ih acc h1 h2

/-- C3 amended: a successful parse accepts at most 10,000 rows (not
strictly fewer), and strictly more than 10,000 acceptable rows always
fails with `TooLarge`; the parse also fails whenever any row remains
after 10,000 accepted rows. -/
theorem c3_amended_row_limit (rows : List (Option Transaction)) :
    (∀ gOut : GraphData, parse_csv_rows rows = .ok gOut →
      gOut.transactions.length ≤ 10000) ∧
    (10000 < (rows.filterMap id).length →
      parse_csv_rows rows = .error .TooLarge) := by
  constructor
  · intro gOut hok
    unfold parse_csv_rows at hok
    cases hloop : parse_rows_loop rows [] with
    | error e => rw [hloop] at hok; cases hok
    | ok txs =>
      rw [hloop] at hok
      have hok' : (if txs = [] then (Except.error ParseErr.EmptyData :
          Except ParseErr GraphData) else Except.ok (build_graph txs)) =
          Except.ok gOut := hok
      by_cases hnil : txs = []
      · rw [if_pos hnil] at hok'; cases hok'
      · rw [if_neg hnil] at hok'
        cases hok'
        rw [build_graph_transactions]
        exact parse_rows_loop_ok_length rows [] txs
          (by simp [MAX_TRANSACTIONS]) hloop
  · intro hbig
    unfold parse_csv_rows
    rw [parse_rows_loop_overflow rows [] (by simp [MAX_TRANSACTIONS])
      (by simpa [MAX_TRANSACTIONS] using hbig)]

theorem filterMap_id_replicate_some (tx : Transaction) (n : ℕ) :
    (List.replicate n (some tx)).filterMap id = List.replicate n tx := by
  induction n with
  | zero => rfl
  | succ k ih =>
    rw [List.replicate_succ, List.filterMap_cons]
    simp [ih, List.replicate_succ]

/-- Witness for C3 amended: both branches discharged at concrete
inputs. -/
theorem c3_amended_row_limit_witness :
    (parse_csv_rows [some txRow] = .ok (build_graph [txRow]) ∧
     (build_graph [txRow]).transactions.length ≤ 10000) ∧
    (10000 < ((List.replicate 10001 (some txRow)).filterMap id).length ∧
     parse_csv_rows (List.replicate 10001 (some txRow)) = .error .TooLarge) := by
  refine ⟨⟨by rfl, (c3_amended_row_limit [some txRow]).1 _ (by rfl)⟩, ?_, ?_⟩
  · rw [filterMap_id_replicate_some, List.length_replicate]; norm_num
  · exact (c3_amended_row_limit _).2
      (by rw [filterMap_id_replicate_some, List.length_replicate]; norm_num)

-- ─────────────────────────────────────────────────────────────────────
-- C2: the confidence engine's tightness component for smurf rings
-- ─────────────────────────────────────────────────────────────────────

/-- C2 (code bug): smurf rings carry no stored `tightness_score`, so the
confidence engine falls back to reading `members[1:-1]` — hub-first
members list included — as a chain of intermediates.  On `gSmurf` the
detector emits exactly one smurf ring and the tightness component the
engine computes for it is `9/11`, not the neutral `1.0` the
specification requires. -/
theorem c2_smurf_tightness_not_neutral :
    (detect_smurfing gSmurf).map (fun r => tightness_score_engine r gSmurf) =
      [9/11] ∧
    (detect_smurfing gSmurf).map (fun r => r.tightness_score) = [none] ∧
    ¬ ((9 : ℚ)/11 = 1) := by
  refine ⟨by decide, by decide, by norm_num⟩

-- ─────────────────────────────────────────────────────────────────────
-- C1: percentile normalization multiplier
-- ─────────────────────────────────────────────────────────────────────

/-- C1 counterexample: on the triangle-cycle input every account's
density-adjusted score is `27833/625` and its percentile is `3/3 = 1`
(count of scores ≤ it over the set size).  The claim's multiplier
`clamp(0.8 + 0.3·1, 0.85, 1.15) = 1.1` would yield a final score of
`49.0`, but the pipeline outputs `51.2 = 256/5` (it uses base `0.85`,
giving multiplier `1.15`). -/
theorem c1_percentile_counterexample :
    ((run_scoring_pipeline gTriangle [ringTriangle] [] []).suspicious_accounts.map
      (fun acc => (acc.account_id, acc.suspicion_score))) =
      [("A", 256/5), ("B", 256/5), ("C", 256/5)] ∧
    aget (scoresAfterDensity gTriangle
      (processAllRings gTriangle [ringTriangle] [] [])) "A" 0 = 27833/625 ∧
    ((scoresAfterDensity gTriangle
      (processAllRings gTriangle [ringTriangle] [] [])).map (·.2)).countP
        (fun y => decide (y ≤ (27833/625 : ℚ))) = 3 ∧
    ((scoresAfterDensity gTriangle
      (processAllRings gTriangle [ringTriangle] [] [])).map (·.2)).length = 3 ∧
    min 100 (pyRound ((27833/625 : ℚ) *
      spec_percentile_multiplier ((3 : ℚ)/3)) 1) = 49 ∧
    ¬ ((256/5 : ℚ) = 49) := by
  refine ⟨by decide, by decide, by decide, by decide, by decide, by norm_num⟩

theorem aget_foldl_aset_of_not_mem {α : Type} (f : String → α) :
    ∀ (keys : List String) (init : List (String × α)) (a : String) (d : α),
    a ∉ keys →
    aget (keys.foldl (fun m k => aset m k (f k)) init) a d = aget init a d := by
  intro keys
  induction keys with
  | nil => intro init a d _; rfl
  | cons k ks ih =>
    intro init a d hnm
    have hka : k ≠ a := fun he => hnm (by rw [← he]; exact List.mem_cons_self k ks)
    rw [List.foldl_cons, ih _ a d (fun hh => hnm (List.mem_cons_of_mem _ hh)),
      aget_aset_ne init (f k) d hka]

theorem aget_foldl_aset_of_mem {α : Type} (f : String → α) :
    ∀ (keys : List String) (init : List (String × α)) (a : String) (d : α),
    a ∈ keys →
    aget (keys.foldl (fun m k => aset m k (f k)) init) a d = f a := by
  intro keys
  induction keys with
  | nil => intro init a d h; cases h
  | cons k ks ih =>
    intro init a d hmem
    rw [List.foldl_cons]
    by_cases hks : a ∈ ks
    · exact ih _ a d hks
    · have hak : a = k := by
        rcases List.mem_cons.mp hmem with h | h
        · exact h
        · exact absurd h hks
      rw [aget_foldl_aset_of_not_mem f ks _ a d hks, hak, aget_aset_self]

theorem mem_akeys_foldl_aset_mono {α : Type} (f : String → α) :
    ∀ (keys : List String) (init : List (String × α)) (a : String),
    a ∈ akeys init → a ∈ akeys (keys.foldl (fun m k => aset m k (f k)) init) := by
  intro keys
  induction keys with
  | nil => intro init a h; exact h
  | cons k ks ih =>
    intro init a hmem
    rw [List.foldl_cons]
    refine ih _ a ?_
    rw [mem_akeys_aset]
    exact Or.inl hmem

theorem mem_akeys_foldl_aset {α : Type} (f : String → α) :
    ∀ (keys : List String) (init : List (String × α)) (a : String),
    a ∈ keys → a ∈ akeys (keys.foldl (fun m k => aset m k (f k)) init) := by
  intro keys
  induction keys with
  | nil => intro init a h; cases h
  | cons k ks ih =>
    intro init a hmem
    rw [List.foldl_cons]
    by_cases hks : a ∈ ks
    · exact ih _ a hks
    · have hak : a = k := by
        rcases List.mem_cons.mp hmem with h | h
        · exact h
        · exact absurd h hks
      refine mem_akeys_foldl_aset_mono f ks _ a ?_
      rw [mem_akeys_aset]
      exact Or.inr hak

theorem takeWhile_length_sorted (x : ℚ) :
    ∀ l : List ℚ, l.Sorted (· ≤ ·) →
    (l.takeWhile (fun y => decide (y ≤ x))).length =
      l.countP (fun y => decide (y ≤ x)) := by
  intro l
  induction l with
  | nil => intro _; rfl
  | cons h t ih =>
    intro hs
    have ht : t.Sorted (· ≤ ·) := hs.of_cons
    have hhead : ∀ y ∈ t, h ≤ y := fun y hy => List.rel_of_sorted_cons hs y hy
    by_cases hx : h ≤ x
    · rw [List.takeWhile_cons_of_pos (by simpa using hx),
        List.countP_cons_of_pos _ _ (by simpa using hx)]
      simp [ih ht]
    · rw [List.takeWhile_cons_of_neg (by simpa using hx),
        List.countP_cons_of_neg _ _ (by simpa using hx)]
      have : t.countP (fun y => decide (y ≤ x)) = 0 := by
        rw [List.countP_eq_zero]
        intro y hy
        simp only [decide_eq_true_eq]
        intro hyx
        exact hx (le_trans (hhead y hy) hyx)
      simp [this]

/-- `bisect_right` on the ascending sort of the score multiset equals
the count of scores `≤ x` in the unsorted multiset. -/
theorem bisect_right_sorted_eq_countP (vals : List ℚ) (x : ℚ) :
    bisect_right (vals.insertionSort (· ≤ ·)) x =
      vals.countP (fun y => decide (y ≤ x)) := by
  unfold bisect_right
  rw [takeWhile_length_sorted x _ (List.sorted_insertionSort _ vals)]
  exact (List.perm_insertionSort _ vals).countP_eq _

/-- C1 amended: the multiplier applied in percentile normalization is
`clamp(0.85 + 0.3 · percentile, 0.85, 1.15)` (base 0.85, not 0.8), with
`percentile = rank(v)/|S|` and `rank(v)` the count of scores ≤ v after
the confidence and density adjustments (ties share the higher rank). -/
theorem c1_amended_percentile_multiplier (g : GraphData)
    (c s sh : List RingRec) (a : String)
    (h : a ∈ suspiciousSet (processAllRings g c s sh)) :
    aget (finalScores g (processAllRings g c s sh)) a 0 =
      min 100 (pyRound
        (aget (scoresAfterDensity g (processAllRings g c s sh)) a 0 *
          clampQ (17/20 + 3/10 *
            ((((scoresAfterDensity g (processAllRings g c s sh)).map (·.2)).countP
              (fun y => decide (y ≤
                aget (scoresAfterDensity g (processAllRings g c s sh)) a 0)) : ℚ) /
             (((scoresAfterDensity g (processAllRings g c s sh)).map (·.2)).length : ℚ)))
            (17/20) (23/20)) 1) := by
  have hn : 0 < ((scoresAfterDensity g (processAllRings g c s sh)).map (·.2)).length := by
    have hkey : a ∈ akeys (scoresAfterDensity g (processAllRings g c s sh)) := by
      unfold scoresAfterDensity
      exact mem_akeys_foldl_aset _ _ _ a h
    rw [List.length_map]
    cases hsc : scoresAfterDensity g (processAllRings g c s sh) with
    | nil => rw [hsc] at hkey; cases hkey
    | cons p rest => simp
  have hstep : finalScores g (processAllRings g c s sh) =
      (suspiciousSet (processAllRings g c s sh)).foldl (fun m account =>
        aset m account (finalScoreOf
          (scoresAfterDensity g (processAllRings g c s sh))
          (((scoresAfterDensity g (processAllRings g c s sh)).map
            (·.2)).insertionSort (· ≤ ·))
          ((((scoresAfterDensity g (processAllRings g c s sh)).map
            (·.2)).insertionSort (· ≤ ·)).length)
          account)) [] := rfl
  rw [hstep, aget_foldl_aset_of_mem
    (finalScoreOf (scoresAfterDensity g (processAllRings g c s sh))
      (((scoresAfterDensity g (processAllRings g c s sh)).map
        (·.2)).insertionSort (· ≤ ·))
      ((((scoresAfterDensity g (processAllRings g c s sh)).map
        (·.2)).insertionSort (· ≤ ·)).length))
    _ _ a 0 h]
  unfold finalScoreOf
  rw [bisect_right_sorted_eq_countP]
  have hlen : ((((scoresAfterDensity g (processAllRings g c s sh)).map
      (·.2)).insertionSort (· ≤ ·)).length) =
      (((scoresAfterDensity g (processAllRings g c s sh)).map (·.2)).length) :=
    (List.perm_insertionSort _ _).length_eq
  rw [hlen, if_pos hn]
  rfl

/-- Witness for C1 amended at the triangle input, account `A`. -/
theorem c1_amended_percentile_multiplier_witness :
    "A" ∈ suspiciousSet (processAllRings gTriangle [ringTriangle] [] []) ∧
    aget (finalScores gTriangle
        (processAllRings gTriangle [ringTriangle] [] [])) "A" 0 =
      min 100 (pyRound
        (aget (scoresAfterDensity gTriangle
            (processAllRings gTriangle [ringTriangle] [] [])) "A" 0 *
          clampQ (17/20 + 3/10 *
            ((((scoresAfterDensity gTriangle
                (processAllRings gTriangle [ringTriangle] [] [])).map (·.2)).countP
              (fun y => decide (y ≤
                aget (scoresAfterDensity gTriangle
                  (processAllRings gTriangle [ringTriangle] [] [])) "A" 0)) : ℚ) /
             (((scoresAfterDensity gTriangle
                (processAllRings gTriangle [ringTriangle] [] [])).map
                (·.2)).length : ℚ)))
            (17/20) (23/20)) 1) :=
  ⟨by decide,
    c1_amended_percentile_multiplier gTriangle [ringTriangle] [] [] "A" (by decide)⟩

-- ─────────────────────────────────────────────────────────────────────
-- C4: every detected cycle ring satisfies the stated bounds
-- ─────────────────────────────────────────────────────────────────────

theorem validate_cycle_spec (txs : List Transaction) (hne : txs ≠ [])
    (hv : validate_cycle txs = true) :
    time_span_hours txs ≤ 72 ∧
    listMinQ (txs.map (·.amount)) ≠ 0 ∧
    listMaxQ (txs.map (·.amount)) / listMinQ (txs.map (·.amount)) ≤ 5/4 := by
  unfold validate_cycle at hv
  by_cases hspan : 72 < time_span_hours txs
  · rw [if_pos hspan] at hv; cases hv
  · rw [if_neg hspan] at hv
    have hamts : ¬ txs.map (·.amount) = [] := by
      simpa [List.map_eq_nil_iff] using hne
    by_cases hmin : listMinQ (txs.map (·.amount)) = 0
    · have hr : amount_ratio txs = none := by
        unfold amount_ratio
        rw [if_neg hamts, if_pos hmin]
      rw [hr] at hv; cases hv
    · have hr : amount_ratio txs =
          some (listMaxQ (txs.map (·.amount)) / listMinQ (txs.map (·.amount))) := by
        unfold amount_ratio
        rw [if_neg hamts, if_neg hmin]
      rw [hr] at hv
      have hv2 : (if 5/4 < listMaxQ (txs.map (·.amount)) /
          listMinQ (txs.map (·.amount)) then false else true) = true := hv
      by_cases hrat : 5/4 <
          listMaxQ (txs.map (·.amount)) / listMinQ (txs.map (·.amount))
      · rw [if_pos hrat] at hv2; cases hv2
      · exact ⟨le_of_not_lt hspan, hmin, le_of_not_lt hrat⟩

theorem cycle_dfs_results_ok (g : GraphData) :
    ∀ (fuel : ℕ) (path : List String) (txp : List Transaction) (start : String)
      (st : CycState),
    (∀ r ∈ st.results, CycleRingOK r) →
    ∀ r ∈ (cycle_dfs g fuel path txp start st).results, CycleRingOK r := by
  intro fuel
  induction fuel with
  | zero => intro path txp start st hst r hr; exact hst r hr
  | succ fuel ih =>
    intro path txp start st hst
    unfold cycle_dfs
    by_cases hdepth : 5 < path.length
    · rw [if_pos hdepth]; exact hst
    · rw [if_neg hdepth]
      refine foldl_preserve (fun s => ∀ r ∈ s.results, CycleRingOK r) ?_ _ st hst
      intro st' tx hst'
      dsimp only
      by_cases h1 : strLt tx.receiver start
      · rw [if_pos h1]; exact hst'
      · rw [if_neg h1]
        by_cases h2 : tx.receiver = start ∧ 3 ≤ path.length
        · rw [if_pos h2]
          by_cases h3 : validate_cycle (txp ++ [tx]) = true
          · rw [if_pos h3]
            by_cases h4 : path ∈ st'.seen_canonical
            · rw [if_pos h4]; exact hst'
            · rw [if_neg h4]
              intro r hr
              rcases List.mem_append.mp hr with hold | hnew
              · exact hst' r hold
              · have hrr : r = mk_cycle_ring path (txp ++ [tx]) := by
                  simpa using hnew
                subst hrr
                have hvs := validate_cycle_spec (txp ++ [tx])
                  (by simp) h3
                exact ⟨rfl, rfl, h2.2, le_of_not_lt hdepth,
                  hvs.1, hvs.2.1, hvs.2.2⟩
          · rw [if_neg (by simpa using h3)]; exact hst'
        · rw [if_neg h2]
          by_cases h5 : tx.receiver ∉ path ∧ path.length < 5
          · rw [if_pos h5]
            by_cases h6 : time_span_hours (txp ++ [tx]) ≤ 72
            · rw [if_pos h6]
              exact ih _ _ _ _ hst'
            · rw [if_neg h6]; exact hst'
          · rw [if_neg h5]; exact hst'

/-- C4: every ring returned by `detect_cycles` has `cycle_length`
equal to its member count, between 3 and 5, a transaction time span of
at most 72 hours, and a max/min amount ratio of at most 1.25. -/
theorem c4_cycle_ring_bounds (g : GraphData) (r : RingRec)
    (h : r ∈ detect_cycles g) :
    r.cycle_length = some r.members.length ∧
    3 ≤ r.members.length ∧ r.members.length ≤ 5 ∧
    time_span_hours r.transactions ≤ 72 ∧
    listMinQ (r.transactions.map (·.amount)) ≠ 0 ∧
    listMaxQ (r.transactions.map (·.amount)) /
      listMinQ (r.transactions.map (·.amount)) ≤ 5/4 := by
  have hall : ∀ rr ∈ (detect_cycles g), CycleRingOK rr := by
    unfold detect_cycles cycleDetState
    refine foldl_preserve (fun st => ∀ rr ∈ CycState.results st, CycleRingOK rr)
      ?_ _ _ (by intro rr hrr; cases hrr)
    intro st s hst
    exact cycle_dfs_results_ok g 6 [s] [] s st hst
  have hok := hall r h
  exact ⟨hok.2.1, hok.2.2.1, hok.2.2.2.1, hok.2.2.2.2.1,
    hok.2.2.2.2.2.1, hok.2.2.2.2.2.2⟩

/-- Witness for C4 at the triangle input. -/
theorem c4_cycle_ring_bounds_witness :
    ringTriangle ∈ detect_cycles gTriangle ∧
    (ringTriangle.cycle_length = some ringTriangle.members.length ∧
    3 ≤ ringTriangle.members.length ∧ ringTriangle.members.length ≤ 5 ∧
    time_span_hours ringTriangle.transactions ≤ 72 ∧
    listMinQ (ringTriangle.transactions.map (·.amount)) ≠ 0 ∧
    listMaxQ (ringTriangle.transactions.map (·.amount)) /
      listMinQ (ringTriangle.transactions.map (·.amount)) ≤ 5/4) :=
  ⟨by decide, c4_cycle_ring_bounds gTriangle ringTriangle (by decide)⟩

-- ─────────────────────────────────────────────────────────────────────
-- C6: canonical min-fronted cycles, no two returned rings rotations
-- ─────────────────────────────────────────────────────────────────────

theorem strData_inj {a b : String} (h : a.data = b.data) : a = b :=
  String.ext h

theorem minFronted_rotate_head (l : List String) (n : ℕ) (hmf : minFronted l) :
    l.rotate n = l ∨
    ∃ x y, l.head? = some x ∧ (l.rotate n).head? = some y ∧ strLt x y := by
  cases l with
  | nil => cases hmf
  | cons h t =>
    rcases Nat.eq_zero_or_pos (n % (h :: t).length) with hk | hk
    · left
      rw [← List.rotate_mod, hk, List.rotate_zero]
    · right
      have hklt : n % (h :: t).length < (h :: t).length :=
        Nat.mod_lt _ (by simp)
      obtain ⟨j, hj⟩ : ∃ j, n % (h :: t).length = j + 1 :=
        ⟨n % (h :: t).length - 1, by omega⟩
      have hjlt : j + 1 < (h :: t).length := hj ▸ hklt
      have hjt : j < t.length := by simpa using hjlt
      refine ⟨h, t[j], rfl, ?_, ?_⟩
      · rw [← List.rotate_mod, hj,
          List.rotate_eq_drop_append_take (le_of_lt hjlt),
          List.drop_eq_getElem_cons hjlt]
        simp
      · exact hmf _ (List.getElem_mem hjt)

theorem minFronted_isRotated_eq {l₁ l₂ : List String}
    (h₁ : minFronted l₁) (h₂ : minFronted l₂)
    (hrot : List.IsRotated l₁ l₂) : l₁ = l₂ := by
  obtain ⟨n, hn⟩ := hrot
  rcases minFronted_rotate_head l₁ n h₁ with heq | ⟨x, y, hx, hy, hlt⟩
  · rw [heq] at hn; exact hn
  · obtain ⟨m, hm⟩ := (List.IsRotated.symm ⟨n, hn⟩ : List.IsRotated l₂ l₁)
    rcases minFronted_rotate_head l₂ m h₂ with heq2 | ⟨x2, y2, hx2, hy2, hlt2⟩
    · rw [heq2] at hm; exact hm.symm
    · exfalso
      rw [hn] at hy
      rw [hm] at hy2
      rw [hx2] at hy
      rw [hx] at hy2
      have e1 : x2 = y := Option.some.inj hy
      have e2 : x = y2 := Option.some.inj hy2
      have hlt3 : y.data < x.data := by
        have hx2y2 : x2.data < y2.data := hlt2
        rwa [e1, ← e2] at hx2y2
      exact absurd (lt_trans (show x.data < y.data from hlt) hlt3)
        (lt_irrefl x.data)

theorem cycle_dfs_canonical (g : GraphData) :
    ∀ (fuel : ℕ) (path : List String) (txp : List Transaction) (start : String)
      (st : CycState) (rest : List String),
    path = start :: rest → (∀ x ∈ rest, strLt start x) →
    CycStateOK st →
    CycStateOK (cycle_dfs g fuel path txp start st) ∧
    (∀ m ∈ st.seen_canonical,
      m ∈ (cycle_dfs g fuel path txp start st).seen_canonical) := by
  intro fuel
  induction fuel with
  | zero =>
    intro path txp start st rest hpath hrest hst
    exact ⟨hst, fun m hm => hm⟩
  | succ fuel ih =>
    intro path txp start st rest hpath hrest hst
    unfold cycle_dfs
    by_cases hdepth : 5 < path.length
    · rw [if_pos hdepth]; exact ⟨hst, fun m hm => hm⟩
    · rw [if_neg hdepth]
      refine foldl_preserve
        (fun s => CycStateOK s ∧
          ∀ m ∈ st.seen_canonical, m ∈ s.seen_canonical)
        ?_ _ st ⟨hst, fun m hm => hm⟩
      intro st' tx hst'
      dsimp only
      by_cases h1 : strLt tx.receiver start
      · rw [if_pos h1]; exact hst'
      · rw [if_neg h1]
        by_cases h2 : tx.receiver = start ∧ 3 ≤ path.length
        · rw [if_pos h2]
          by_cases h3 : validate_cycle (txp ++ [tx]) = true
          · rw [if_pos h3]
            by_cases h4 : path ∈ st'.seen_canonical
            · rw [if_pos h4]; exact hst'
            · rw [if_neg h4]
              obtain ⟨⟨hmem, hpw⟩, hmono⟩ := hst'
              refine ⟨⟨?_, ?_⟩, ?_⟩
              · intro r hr
                rcases List.mem_append.mp hr with hold | hnew
                · obtain ⟨hmf, hseen⟩ := hmem r hold
                  exact ⟨hmf, List.mem_cons_of_mem _ hseen⟩
                · have hrr : r = mk_cycle_ring path (txp ++ [tx]) := by
                    simpa using hnew
                  subst hrr
                  constructor
                  · show minFronted path
                    rw [hpath]
                    simpa [minFronted] using hrest
                  · exact List.mem_cons_self _ _
              · rw [List.pairwise_append]
                refine ⟨hpw, by simp, ?_⟩
                intro a ha b hb
                have hbm : b = mk_cycle_ring path (txp ++ [tx]) := by
                  simpa using hb
                subst hbm
                show a.members ≠ path
                intro hcon
                exact h4 (hcon ▸ (hmem a ha).2)
              · intro m hm
                exact List.mem_cons_of_mem _ (hmono m hm)
          · rw [if_neg (by simpa using h3)]; exact hst'
        · rw [if_neg h2]
          by_cases h5 : tx.receiver ∉ path ∧ path.length < 5
          · rw [if_pos h5]
            by_cases h6 : time_span_hours (txp ++ [tx]) ≤ 72
            · rw [if_pos h6]
              have hne : tx.receiver ≠ start := by
                intro he
                exact h5.1 (by rw [hpath, he]; exact List.mem_cons_self _ _)
              have hstart_lt : strLt start tx.receiver :=
                lt_of_le_of_ne (le_of_not_lt h1)
                  (fun e => hne (strData_inj e.symm))
              have hrest2 : ∀ x ∈ rest ++ [tx.receiver], strLt start x := by
                intro x hx
                rcases List.mem_append.mp hx with hx | hx
                · exact hrest x hx
                · rw [List.mem_singleton.mp hx]; exact hstart_lt
              obtain ⟨hok2, hmono2⟩ := ih (path ++ [tx.receiver]) (txp ++ [tx])
                start st' (rest ++ [tx.receiver]) (by rw [hpath]; rfl)
                hrest2 hst'.1
              exact ⟨hok2, fun m hm => hmono2 m (hst'.2 m hm)⟩
            · rw [if_neg h6]; exact hst'
          · rw [if_neg h5]; exact hst'

/-- C6: every ring returned by `detect_cycles` has a members list that
begins with its strictly smallest element, and no two returned rings
have members lists that are rotations of one another (equal member
tuples — e.g. from parallel edges — are collapsed, so the rotation
relation, which includes equality, never holds between two entries). -/
theorem c6_canonical_members_no_rotations (g : GraphData) :
    (∀ r ∈ detect_cycles g, minFronted r.members) ∧
    (detect_cycles g).Pairwise
      (fun a b => ¬ List.IsRotated a.members b.members) := by
  have hstate : CycStateOK (cycleDetState g) := by
    unfold cycleDetState
    refine foldl_preserve CycStateOK ?_ _ _
      ⟨(by intro r hr; cases hr), List.Pairwise.nil⟩
    intro st s hst
    exact (cycle_dfs_canonical g 6 [s] [] s st [] rfl
      (by intro x hx; cases hx) hst).1
  constructor
  · intro r hr
    exact (hstate.1 r hr).1
  · refine hstate.2.imp_of_mem ?_
    intro a b ha hb hne hrot
    exact hne (minFronted_isRotated_eq (hstate.1 a ha).1 (hstate.1 b hb).1 hrot)

/-- Witness for C6 at the triangle input. -/
theorem c6_canonical_members_no_rotations_witness :
    ringTriangle ∈ detect_cycles gTriangle ∧ minFronted ringTriangle.members :=
  ⟨by decide, (c6_canonical_members_no_rotations gTriangle).1 ringTriangle
    (by decide)⟩

-- ─────────────────────────────────────────────────────────────────────
-- C5: only maximal shell chains are kept
-- ─────────────────────────────────────────────────────────────────────

theorem ContigSub.length_le {x l : List String} (h : ContigSub x l) :
    x.length ≤ l.length := by
  obtain ⟨p, sfx, hl⟩ := h
  subst hl
  simp [List.length_append]
  omega

theorem ContigSub.self (l : List String) : ContigSub l l := ⟨[], [], by simp⟩

theorem ContigSub.eq_of_length {x l : List String} (h : ContigSub x l)
    (hlen : l.length ≤ x.length) : x = l := by
  obtain ⟨p, sfx, hl⟩ := h
  subst hl
  have hp0 : p.length = 0 := by
    simp [List.length_append] at hlen; omega
  have hs0 : sfx.length = 0 := by
    simp [List.length_append] at hlen; omega
  rw [List.length_eq_zero] at hp0 hs0
  subst hp0; subst hs0; simp

theorem mem_contiguousSubseqs {x l : List String} (hlen : 2 ≤ x.length)
    (h : ContigSub x l) : x ∈ contiguousSubseqs l := by
  obtain ⟨p, sfx, hl⟩ := h
  subst hl
  unfold contiguousSubseqs
  rw [List.mem_flatMap]
  refine ⟨x.length, ?_, ?_⟩
  · rw [List.mem_range]
    simp [List.length_append]
    omega
  · rw [if_pos hlen, List.mem_map]
    refine ⟨p.length, ?_, ?_⟩
    · rw [List.mem_range]
      simp [List.length_append]
      omega
    · rw [List.append_assoc, List.drop_left, List.take_left]

theorem shellRecordStep_ok (g : GraphData) (path : List String)
    (txp : List Transaction) (st : ShellState)
    (hst : ∀ r ∈ st.results,
      r.path_length = some r.members.length ∧ 3 ≤ r.members.length) :
    ∀ r ∈ (shellRecordStep g path txp st).results,
      r.path_length = some r.members.length ∧ 3 ≤ r.members.length := by
  unfold shellRecordStep
  by_cases hc : 3 ≤ path.length ∧ path ∉ st.seen_paths ∧
      validate_chain txp = true
  · rw [if_pos hc]
    intro r hr
    rcases List.mem_append.mp hr with hold | hnew
    · exact hst r hold
    · have hrr : r = mk_shell_ring g path txp := by simpa using hnew
      subst hrr
      exact ⟨rfl, hc.1⟩
  · rw [if_neg hc]
    exact hst

theorem explore_chains_results_ok (g : GraphData) :
    ∀ (fuel : ℕ) (path : List String) (txp : List Transaction)
      (st : ShellState),
    (∀ r ∈ st.results,
      r.path_length = some r.members.length ∧ 3 ≤ r.members.length) →
    ∀ r ∈ (explore_chains g fuel path txp st).results,
      r.path_length = some r.members.length ∧ 3 ≤ r.members.length := by
  intro fuel
  induction fuel with
  | zero => intro path txp st hst; exact hst
  | succ fuel ih =>
    intro path txp st hst
    unfold explore_chains
    by_cases hdepth : 8 ≤ path.length
    · rw [if_pos hdepth]
      exact shellRecordStep_ok g path txp st hst
    · rw [if_neg hdepth]
      refine foldl_preserve (fun s : ShellState => ∀ r ∈ s.results,
          r.path_length = some r.members.length ∧ 3 ≤ r.members.length)
        ?_ _ _ (shellRecordStep_ok g path txp st hst)
      intro st' tx hst'
      dsimp only
      by_cases h1 : tx.receiver ∈ path
      · rw [if_pos h1]; exact hst'
      · rw [if_neg h1]
        by_cases h2 : tx.amount < 100
        · rw [if_pos h2]; exact hst'
        · rw [if_neg h2]
          by_cases h3 : 1 < path.length ∧ ¬ intermediateOk g (path.getLastD "") = true
          · rw [if_pos h3]; exact hst'
          · rw [if_neg h3]
            by_cases h4 : 72 < time_span_hours (txp ++ [tx])
            · rw [if_pos h4]; exact hst'
            · rw [if_neg h4]
              exact ih _ _ _ hst'

theorem keep_fold_pairwise :
    ∀ (l : List RingRec) (keep : List RingRec) (covered : List (List String)),
    (∀ c ∈ l, c.path_length = some c.members.length ∧ 2 ≤ c.members.length) →
    l.Pairwise (fun a b => b.members.length ≤ a.members.length) →
    (∀ k ∈ keep, 2 ≤ k.members.length) →
    (∀ k ∈ keep, ∀ x, 2 ≤ x.length → ContigSub x k.members → x ∈ covered) →
    keep.Pairwise RingNonSub →
    (∀ c ∈ l, ∀ k ∈ keep, c.members.length ≤ k.members.length) →
    (l.foldl keep_step (keep, covered)).1.Pairwise RingNonSub := by
  intro l
  induction l with
  | nil => intro keep covered _ _ _ _ hpw _; exact hpw
  | cons c rest ih =>
    intro keep covered hlen hsor hk2 hcov hpw hle
    rw [List.foldl_cons]
    have hsor_head : ∀ b ∈ rest, b.members.length ≤ c.members.length :=
      (List.pairwise_cons.mp hsor).1
    have hsor_tail := (List.pairwise_cons.mp hsor).2
    have hlen_c := hlen c (List.mem_cons_self c rest)
    have hlen_rest : ∀ c' ∈ rest, c'.path_length = some c'.members.length ∧
        2 ≤ c'.members.length := fun c' hc' => hlen c' (List.mem_cons_of_mem _ hc')
    by_cases hc : c.members ∈ covered
    · have hstep : keep_step (keep, covered) c = (keep, covered) := by
        unfold keep_step
        rw [if_pos (show c.members ∈ (keep, covered).2 from hc)]
      rw [hstep]
      refine ih keep covered hlen_rest hsor_tail hk2 hcov hpw ?_
      intro c' hc' k hk
      exact hle c' (List.mem_cons_of_mem _ hc') k hk
    · have hstep : keep_step (keep, covered) c =
          (keep ++ [c], covered ++ contiguousSubseqs c.members) := by
        unfold keep_step
        rw [if_neg (show ¬ c.members ∈ (keep, covered).2 from hc)]
      rw [hstep]
      have hnonsub : ∀ k ∈ keep, RingNonSub k c := by
        intro k hk
        constructor
        · intro hsub
          have hkc : k.members.length ≤ c.members.length :=
            ContigSub.length_le hsub
          have hck : c.members.length ≤ k.members.length :=
            hle c (List.mem_cons_self c rest) k hk
          have heq : k.members = c.members :=
            ContigSub.eq_of_length hsub hck
          have : c.members ∈ covered := by
            rw [← heq]
            exact hcov k hk k.members (heq ▸ hlen_c.2) (ContigSub.self _)
          exact hc this
        · intro hsub
          exact hc (hcov k hk c.members hlen_c.2 hsub)
      refine ih (keep ++ [c]) (covered ++ contiguousSubseqs c.members)
        hlen_rest hsor_tail ?_ ?_ ?_ ?_
      · intro k hk
        rcases List.mem_append.mp hk with hold | hnew
        · exact hk2 k hold
        · rw [List.mem_singleton.mp hnew]; exact hlen_c.2
      · intro k hk x hx2 hxsub
        rcases List.mem_append.mp hk with hold | hnew
        · exact List.mem_append_left _ (hcov k hold x hx2 hxsub)
        · rw [List.mem_singleton.mp hnew] at hxsub
          exact List.mem_append_right _ (mem_contiguousSubseqs hx2 hxsub)
      · rw [List.pairwise_append]
        refine ⟨hpw, by simp, ?_⟩
        intro a ha b hb
        rw [List.mem_singleton.mp hb]
        exact hnonsub a ha
      · intro c' hc' k hk
        rcases List.mem_append.mp hk with hold | hnew
        · exact hle c' (List.mem_cons_of_mem _ hc') k hold
        · rw [List.mem_singleton.mp hnew]
          exact hsor_head c' hc'

theorem keep_maximal_chains_pairwise (chains : List RingRec)
    (h : ∀ c ∈ chains,
      c.path_length = some c.members.length ∧ 2 ≤ c.members.length) :
    (keep_maximal_chains chains).Pairwise RingNonSub := by
  unfold keep_maximal_chains
  by_cases hnil : chains = []
  · rw [if_pos hnil]; exact List.Pairwise.nil
  · rw [if_neg hnil]
    have hmem : ∀ c ∈ chains.insertionSort shellLenDesc,
        c.path_length = some c.members.length ∧ 2 ≤ c.members.length :=
      fun c hc => h c ((List.mem_insertionSort _).mp hc)
    have hsorted : (chains.insertionSort shellLenDesc).Pairwise shellLenDesc :=
      List.sorted_insertionSort _ _
    have hsor : (chains.insertionSort shellLenDesc).Pairwise
        (fun a b => b.members.length ≤ a.members.length) := by
      refine hsorted.imp_of_mem ?_
      intro a b ha hb hr
      unfold shellLenDesc at hr
      rw [(hmem a ha).1, (hmem b hb).1] at hr
      simpa using hr
    exact keep_fold_pairwise _ [] [] hmem hsor (by simp) (by simp)
      List.Pairwise.nil (by simp)

/-- C5: among the shell rings returned by `detect_shell_chains`, no
ring's member sequence is a contiguous subsequence of another returned
ring's member sequence. -/
theorem c5_shell_chains_maximal (g : GraphData) :
    (detect_shell_chains g).Pairwise RingNonSub := by
  unfold detect_shell_chains
  refine keep_maximal_chains_pairwise _ ?_
  have hraw : ∀ r ∈ (((sortedStrings g.all_nodes).foldl (fun st start_node =>
      explore_chains g 9 [start_node] [] st)
      { seen_paths := [], results := [] }).results),
      r.path_length = some r.members.length ∧ 3 ≤ r.members.length := by
    refine foldl_preserve (fun st => ∀ r ∈ ShellState.results st,
        r.path_length = some r.members.length ∧ 3 ≤ r.members.length)
      ?_ _ _ (by intro r hr; cases hr)
    intro st s hst
    exact explore_chains_results_ok g 9 [s] [] st hst
  intro c hc
  exact ⟨(hraw c hc).1, le_trans (by norm_num) (hraw c hc).2⟩

-- ─────────────────────────────────────────────────────────────────────
-- C7: flagged accounts are exactly ring members; no velocity tag
-- ─────────────────────────────────────────────────────────────────────

theorem addPatternTag_keys (m : List (String × List String)) (a t a' : String) :
    a' ∈ akeys (addPatternTag m a t) ↔ a' ∈ akeys m ∨ a' = a := by
  unfold addPatternTag
  exact mem_akeys_aset m a a' _

theorem addPatternTag_tags (m : List (String × List String))
    (a t a' t' : String) :
    t' ∈ aget (addPatternTag m a t) a' [] ↔
      t' ∈ aget m a' [] ∨ (a' = a ∧ t' = t) := by
  unfold addPatternTag
  by_cases ha : a = a'
  · subst ha
    rw [aget_aset_self]
    by_cases ht : t ∈ aget m a []
    · rw [if_pos ht]
      constructor
      · exact fun hh => Or.inl hh
      · rintro (hh | ⟨_, rfl⟩)
        · exact hh
        · exact ht
    · rw [if_neg ht, List.mem_append, List.mem_singleton]
      simp
  · rw [aget_aset_ne _ _ _ ha]
    have hne : ¬ (a' = a) := fun e => ha e.symm
    simp [hne]

theorem tagfold_keys
    (F : List (String × List String) → String → List (String × List String))
    (H1 : ∀ m member a, a ∈ akeys (F m member) ↔ a ∈ akeys m ∨ a = member) :
    ∀ (members : List String) (m : List (String × List String)) (a : String),
    a ∈ akeys (members.foldl F m) ↔ a ∈ akeys m ∨ a ∈ members := by
  intro members
  induction members with
  | nil => intro m a; simp
  | cons mem rest ih =>
    intro m a
    rw [List.foldl_cons, ih, H1, List.mem_cons]
    tauto

theorem tagfold_tags
    (F : List (String × List String) → String → List (String × List String))
    (T : String → Prop)
    (H2 : ∀ m member a t, t ∈ aget (F m member) a [] →
      t ∈ aget m a [] ∨ T t) :
    ∀ (members : List String) (m : List (String × List String))
      (a t : String),
    t ∈ aget (members.foldl F m) a [] → t ∈ aget m a [] ∨ T t := by
  intro members
  induction members with
  | nil => intro m a t h; exact Or.inl h
  | cons mem rest ih =>
    intro m a t h
    rw [List.foldl_cons] at h
    rcases ih _ a t h with h2 | h2
    · exact H2 m mem a t h2
    · exact Or.inr h2

theorem processCycleRings_patterns (g : GraphData) :
    ∀ (rings : List RingRec) (st : RingProcState) (a : String),
    (a ∈ akeys (processCycleRings g st rings).account_patterns ↔
      a ∈ akeys st.account_patterns ∨ ∃ r, r ∈ rings ∧ a ∈ r.members) ∧
    (∀ t, t ∈ aget (processCycleRings g st rings).account_patterns a [] →
      t ∈ aget st.account_patterns a [] ∨ t = "cycle" ∨
        ∃ n : ℕ, t = "cycle_length_" ++ toString n) := by
  intro rings
  induction rings with
  | nil =>
    intro st a
    refine ⟨by simp [processCycleRings], ?_⟩
    intro t ht
    exact Or.inl (by simpa [processCycleRings] using ht)
  | cons r rest ih =>
    intro st a
    have hstep : processCycleRings g st (r :: rest) =
        processCycleRings g
          { account_patterns := r.members.foldl (fun m member =>
              addPatternTag (addPatternTag m member "cycle") member
                ("cycle_length_" ++ toString (r.cycle_length.getD 0)))
              st.account_patterns,
            account_rings := r.members.foldl (fun m member =>
              addAccountRing m member (ringIdStr (st.ring_counter + 1)))
              st.account_rings,
            all_rings := st.all_rings ++
              [{ { r with ring_id := some (ringIdStr (st.ring_counter + 1)) } with
                structural_confidence := some (compute_structural_confidence
                  { r with ring_id := some (ringIdStr (st.ring_counter + 1)) } g) }],
            ring_counter := st.ring_counter + 1 } rest := rfl
    rw [hstep]
    have H1 : ∀ m member a', a' ∈ akeys (addPatternTag (addPatternTag m member
        "cycle") member ("cycle_length_" ++ toString (r.cycle_length.getD 0))) ↔
        a' ∈ akeys m ∨ a' = member := by
      intro m member a'
      rw [addPatternTag_keys, addPatternTag_keys]
      tauto
    have H2 : ∀ m member a' t, t ∈ aget (addPatternTag (addPatternTag m member
        "cycle") member ("cycle_length_" ++ toString (r.cycle_length.getD 0)))
        a' [] → t ∈ aget m a' [] ∨ t = "cycle" ∨
        ∃ n : ℕ, t = "cycle_length_" ++ toString n := by
      intro m member a' t ht
      rcases (addPatternTag_tags _ _ _ _ _).mp ht with h2 | ⟨_, rfl⟩
      · rcases (addPatternTag_tags _ _ _ _ _).mp h2 with h3 | ⟨_, rfl⟩
        · exact Or.inl h3
        · exact Or.inr (Or.inl rfl)
      · exact Or.inr (Or.inr ⟨r.cycle_length.getD 0, rfl⟩)
    constructor
    · rw [(ih _ a).1]
      dsimp only
      rw [tagfold_keys _ H1]
      constructor
      · rintro ((h | h) | ⟨r', hr', hm⟩)
        · exact Or.inl h
        · exact Or.inr ⟨r, List.mem_cons_self _ _, h⟩
        · exact Or.inr ⟨r', List.mem_cons_of_mem _ hr', hm⟩
      · rintro (h | ⟨r', hr', hm⟩)
        · exact Or.inl (Or.inl h)
        · rcases List.mem_cons.mp hr' with rfl | hr2
          · exact Or.inl (Or.inr hm)
          · exact Or.inr ⟨r', hr2, hm⟩
    · intro t ht
      rcases (ih _ a).2 t ht with h2 | h2
      · dsimp only at h2
        exact tagfold_tags _ _ H2 _ _ a t h2
      · exact Or.inr h2

theorem processSmurfRings_patterns (g : GraphData) :
    ∀ (rings : List RingRec) (st : RingProcState) (a : String),
    (a ∈ akeys (processSmurfRings g st rings).account_patterns ↔
      a ∈ akeys st.account_patterns ∨ ∃ r, r ∈ rings ∧ a ∈ r.members) ∧
    (∀ t, t ∈ aget (processSmurfRings g st rings).account_patterns a [] →
      t ∈ aget st.account_patterns a [] ∨ t = "smurfing") := by
  intro rings
  induction rings with
  | nil =>
    intro st a
    refine ⟨by simp [processSmurfRings], ?_⟩
    intro t ht
    exact Or.inl (by simpa [processSmurfRings] using ht)
  | cons r rest ih =>
    intro st a
    have hstep : processSmurfRings g st (r :: rest) =
        processSmurfRings g
          { account_patterns := r.members.foldl (fun m member =>
              addPatternTag m member "smurfing") st.account_patterns,
            account_rings := r.members.foldl (fun m member =>
              addAccountRing m member (ringIdStr (st.ring_counter + 1)))
              st.account_rings,
            all_rings := st.all_rings ++
              [{ { r with ring_id := some (ringIdStr (st.ring_counter + 1)) } with
                structural_confidence := some (compute_structural_confidence
                  { r with ring_id := some (ringIdStr (st.ring_counter + 1)) } g) }],
            ring_counter := st.ring_counter + 1 } rest := rfl
    rw [hstep]
    have H1 : ∀ m member a', a' ∈ akeys (addPatternTag m member "smurfing") ↔
        a' ∈ akeys m ∨ a' = member := fun m member a' =>
      addPatternTag_keys m member "smurfing" a'
    have H2 : ∀ m member a' t, t ∈ aget (addPatternTag m member "smurfing")
        a' [] → t ∈ aget m a' [] ∨ t = "smurfing" := by
      intro m member a' t ht
      rcases (addPatternTag_tags _ _ _ _ _).mp ht with h2 | ⟨_, rfl⟩
      · exact Or.inl h2
      · exact Or.inr rfl
    constructor
    · rw [(ih _ a).1]
      dsimp only
      rw [tagfold_keys _ H1]
      constructor
      · rintro ((h | h) | ⟨r', hr', hm⟩)
        · exact Or.inl h
        · exact Or.inr ⟨r, List.mem_cons_self _ _, h⟩
        · exact Or.inr ⟨r', List.mem_cons_of_mem _ hr', hm⟩
      · rintro (h | ⟨r', hr', hm⟩)
        · exact Or.inl (Or.inl h)
        · rcases List.mem_cons.mp hr' with rfl | hr2
          · exact Or.inl (Or.inr hm)
          · exact Or.inr ⟨r', hr2, hm⟩
    · intro t ht
      rcases (ih _ a).2 t ht with h2 | h2
      · dsimp only at h2
        exact tagfold_tags _ _ H2 _ _ a t h2
      · exact Or.inr h2

theorem processShellRings_patterns (g : GraphData) :
    ∀ (rings : List RingRec) (st : RingProcState) (a : String),
    (a ∈ akeys (processShellRings g st rings).account_patterns ↔
      a ∈ akeys st.account_patterns ∨ ∃ r, r ∈ rings ∧ a ∈ r.members) ∧
    (∀ t, t ∈ aget (processShellRings g st rings).account_patterns a [] →
      t ∈ aget st.account_patterns a [] ∨ t = "shell") := by
  intro rings
  induction rings with
  | nil =>
    intro st a
    refine ⟨by simp [processShellRings], ?_⟩
    intro t ht
    exact Or.inl (by simpa [processShellRings] using ht)
  | cons r rest ih =>
    intro st a
    have hstep : processShellRings g st (r :: rest) =
        processShellRings g
          { account_patterns := r.members.foldl (fun m member =>
              addPatternTag m member "shell") st.account_patterns,
            account_rings := r.members.foldl (fun m member =>
              addAccountRing m member (ringIdStr (st.ring_counter + 1)))
              st.account_rings,
            all_rings := st.all_rings ++
              [{ { r with ring_id := some (ringIdStr (st.ring_counter + 1)) } with
                structural_confidence := some (compute_structural_confidence
                  { r with ring_id := some (ringIdStr (st.ring_counter + 1)) } g) }],
            ring_counter := st.ring_counter + 1 } rest := rfl
    rw [hstep]
    have H1 : ∀ m member a', a' ∈ akeys (addPatternTag m member "shell") ↔
        a' ∈ akeys m ∨ a' = member := fun m member a' =>
      addPatternTag_keys m member "shell" a'
    have H2 : ∀ m member a' t, t ∈ aget (addPatternTag m member "shell")
        a' [] → t ∈ aget m a' [] ∨ t = "shell" := by
      intro m member a' t ht
      rcases (addPatternTag_tags _ _ _ _ _).mp ht with h2 | ⟨_, rfl⟩
      · exact Or.inl h2
      · exact Or.inr rfl
    constructor
    · rw [(ih _ a).1]
      dsimp only
      rw [tagfold_keys _ H1]
      constructor
      · rintro ((h | h) | ⟨r', hr', hm⟩)
        · exact Or.inl h
        · exact Or.inr ⟨r, List.mem_cons_self _ _, h⟩
        · exact Or.inr ⟨r', List.mem_cons_of_mem _ hr', hm⟩
      · rintro (h | ⟨r', hr', hm⟩)
        · exact Or.inl (Or.inl h)
        · rcases List.mem_cons.mp hr' with rfl | hr2
          · exact Or.inl (Or.inr hm)
          · exact Or.inr ⟨r', hr2, hm⟩
    · intro t ht
      rcases (ih _ a).2 t ht with h2 | h2
      · dsimp only at h2
        exact tagfold_tags _ _ H2 _ _ a t h2
      · exact Or.inr h2

theorem processAllRings_patterns (g : GraphData) (c s sh : List RingRec)
    (a : String) :
    (a ∈ suspiciousSet (processAllRings g c s sh) ↔
      ∃ r, r ∈ c ++ s ++ sh ∧ a ∈ r.members) ∧
    (∀ t, t ∈ aget (processAllRings g c s sh).account_patterns a [] →
      PatternTag t) := by
  unfold processAllRings suspiciousSet
  constructor
  · rw [(processShellRings_patterns g sh _ a).1,
      (processSmurfRings_patterns g s _ a).1,
      (processCycleRings_patterns g c _ a).1]
    dsimp only
    simp only [akeys, List.map_nil, List.not_mem_nil, false_or]
    constructor
    · rintro ((⟨r, hr, hm⟩ | ⟨r, hr, hm⟩) | ⟨r, hr, hm⟩)
      · exact ⟨r, by simp [List.mem_append, hr], hm⟩
      · exact ⟨r, by simp [List.mem_append, hr], hm⟩
      · exact ⟨r, by simp [List.mem_append, hr], hm⟩
    · rintro ⟨r, hr, hm⟩
      rcases List.mem_append.mp hr with hcs | hsh
      · rcases List.mem_append.mp hcs with hc | hs
        · exact Or.inl (Or.inl ⟨r, hc, hm⟩)
        · exact Or.inl (Or.inr ⟨r, hs, hm⟩)
      · exact Or.inr ⟨r, hsh, hm⟩
  · intro t ht
    rcases (processShellRings_patterns g sh _ a).2 t ht with h2 | h2
    · rcases (processSmurfRings_patterns g s _ a).2 t h2 with h3 | h3
      · rcases (processCycleRings_patterns g c _ a).2 t h3 with h4 | h4
        · dsimp only at h4
          simp [aget] at h4
        · rcases h4 with h5 | h5
          · exact Or.inl h5
          · exact Or.inr (Or.inr (Or.inr h5))
      · exact Or.inr (Or.inl h3)
    · exact Or.inr (Or.inr (Or.inl h2))

theorem patternTag_ne_velocity {t : String} (h : PatternTag t) :
    t ≠ "velocity" := by
  rcases h with rfl | rfl | rfl | ⟨n, rfl⟩
  · decide
  · decide
  · decide
  · intro hcon
    have hlen := congrArg String.length hcon
    rw [String.length_append] at hlen
    have h13 : ("cycle_length_" : String).length = 13 := by decide
    have h8 : ("velocity" : String).length = 8 := by decide
    rw [h13, h8] at hlen
    omega

theorem resultAccounts_ids (g : GraphData) (st : RingProcState) :
    (resultAccounts g st).map (·.account_id) =
      (suspiciousSet st).insertionSort (accountOrd (finalScores g st)) := by
  unfold resultAccounts build_suspicious
  rw [List.map_map]
  show List.map (fun account => account)
      ((suspiciousSet st).insertionSort (accountOrd (finalScores g st))) =
    (suspiciousSet st).insertionSort (accountOrd (finalScores g st))
  simp

/-- C7: the flagged accounts are exactly the ring members (an account in
no ring is never flagged, velocity-flagged or not), and every tag in
`detected_patterns` is a pattern tag — never the velocity flag. -/
theorem c7_flagged_iff_ring_member (g : GraphData) (c s sh : List RingRec) :
    (∀ a, a ∈ (run_scoring_pipeline g c s sh).suspicious_accounts.map
        (·.account_id) ↔ ∃ r, r ∈ c ++ s ++ sh ∧ a ∈ r.members) ∧
    (∀ acc ∈ (run_scoring_pipeline g c s sh).suspicious_accounts,
      ∀ t ∈ acc.detected_patterns, PatternTag t ∧ t ≠ "velocity") := by
  unfold run_scoring_pipeline
  by_cases hempty : suspiciousSet (processAllRings g c s sh) = []
  · rw [if_pos hempty]
    constructor
    · intro a
      simp only [empty_result, List.map_nil, List.not_mem_nil, false_iff]
      rintro ⟨r, hr, hm⟩
      have hmem := (processAllRings_patterns g c s sh a).1.mpr ⟨r, hr, hm⟩
      rw [hempty] at hmem
      cases hmem
    · intro acc hacc
      simp [empty_result] at hacc
  · rw [if_neg hempty]
    constructor
    · intro a
      have hacc : (buildResult g (processAllRings g c s sh)).suspicious_accounts =
          resultAccounts g (processAllRings g c s sh) := rfl
      rw [hacc, resultAccounts_ids, List.mem_insertionSort]
      exact (processAllRings_patterns g c s sh a).1
    · intro acc hacc t ht
      have hacc2 : acc ∈ ((suspiciousSet (processAllRings g c s sh)).insertionSort
          (accountOrd (finalScores g (processAllRings g c s sh)))).map
          (mkAccountOut (processAllRings g c s sh)
            (finalScores g (processAllRings g c s sh))) := hacc
      obtain ⟨account, haccount, rfl⟩ := List.mem_map.mp hacc2
      have ht2 : t ∈ aget (processAllRings g c s sh).account_patterns account [] := by
        simpa [mkAccountOut, sortedStrings, List.mem_insertionSort] using ht
      have hpt := (processAllRings_patterns g c s sh account).2 t ht2
      exact ⟨hpt, patternTag_ne_velocity hpt⟩

/-- Witness for C7 at the triangle input, account `A`, tag `cycle`. -/
theorem c7_flagged_iff_ring_member_witness :
    accA ∈ (run_scoring_pipeline gTriangle [ringTriangle] [] []).suspicious_accounts ∧
    "cycle" ∈ accA.detected_patterns ∧
    (PatternTag "cycle" ∧ "cycle" ≠ "velocity") :=
  ⟨by decide, by decide,
    (c7_flagged_iff_ring_member gTriangle [ringTriangle] [] []).2 accA
      (by decide) "cycle" (by decide)⟩

-- ─────────────────────────────────────────────────────────────────────
-- C8: the dampened flag has no influence on scoring
-- ─────────────────────────────────────────────────────────────────────

theorem temporal_score_congr {r₁ r₂ : RingRec}
    (ht : r₁.transactions = r₂.transactions) :
    temporal_score r₁ = temporal_score r₂ := by
  unfold temporal_score
  rw [ht]

theorem amount_score_congr {r₁ r₂ : RingRec}
    (ha : r₁.amount_ratio = r₂.amount_ratio)
    (ht : r₁.transactions = r₂.transactions) :
    amount_score r₁ = amount_score r₂ := by
  unfold amount_score
  rw [ha, ht]

theorem tightness_score_engine_congr {r₁ r₂ : RingRec} (g : GraphData)
    (hts : r₁.tightness_score = r₂.tightness_score)
    (hm : r₁.members = r₂.members) :
    tightness_score_engine r₁ g = tightness_score_engine r₂ g := by
  unfold tightness_score_engine
  rw [hts, hm]

theorem compute_structural_confidence_congr {r₁ r₂ : RingRec}
    (g : GraphData)
    (ht : r₁.transactions = r₂.transactions)
    (ha : r₁.amount_ratio = r₂.amount_ratio)
    (hm : r₁.members = r₂.members)
    (hts : r₁.tightness_score = r₂.tightness_score) :
    compute_structural_confidence r₁ g =
      compute_structural_confidence r₂ g := by
  unfold compute_structural_confidence
  rw [temporal_score_congr ht, amount_score_congr ha ht,
    tightness_score_engine_congr g hts hm]

theorem procRing_clearD (g : GraphData) (rid : String) (r : RingRec) :
    procRing g rid (clearDampened r) = clearDampened (procRing g rid r) := by
  have hconf : compute_structural_confidence
      { clearDampened r with ring_id := some rid } g =
      compute_structural_confidence { r with ring_id := some rid } g :=
    compute_structural_confidence_congr g rfl rfl rfl rfl
  simp only [procRing, clearDampened] at hconf ⊢
  rw [hconf]

theorem smurfRingStep_clearD (g : GraphData) (st : RingProcState)
    (r : RingRec) :
    smurfRingStep g (stateClearD st) (clearDampened r) =
      stateClearD (smurfRingStep g st r) := by
  dsimp only [smurfRingStep, stateClearD]
  rw [List.map_append, List.map_cons, List.map_nil, procRing_clearD]
  simp only [clearDampened]

theorem cycleRingStep_clearD (g : GraphData) (st : RingProcState)
    (r : RingRec) :
    cycleRingStep g (stateClearD st) (clearDampened r) =
      stateClearD (cycleRingStep g st r) := by
  dsimp only [cycleRingStep, stateClearD]
  rw [List.map_append, List.map_cons, List.map_nil, procRing_clearD]
  simp only [clearDampened]

theorem shellRingStep_clearD (g : GraphData) (st : RingProcState)
    (r : RingRec) :
    shellRingStep g (stateClearD st) (clearDampened r) =
      stateClearD (shellRingStep g st r) := by
  dsimp only [shellRingStep, stateClearD]
  rw [List.map_append, List.map_cons, List.map_nil, procRing_clearD]
  simp only [clearDampened]

theorem processSmurfRings_clearD (g : GraphData) :
    ∀ (rings : List RingRec) (st : RingProcState),
    processSmurfRings g (stateClearD st) (rings.map clearDampened) =
      stateClearD (processSmurfRings g st rings) := by
  intro rings
  induction rings with
  | nil => intro st; rfl
  | cons r rest ih =>
    intro st
    have h₁ : processSmurfRings g (stateClearD st)
        ((r :: rest).map clearDampened) =
        processSmurfRings g (smurfRingStep g (stateClearD st) (clearDampened r))
          (rest.map clearDampened) := rfl
    have h₂ : processSmurfRings g st (r :: rest) =
        processSmurfRings g (smurfRingStep g st r) rest := rfl
    rw [h₁, smurfRingStep_clearD, ih, h₂]

theorem processCycleRings_clearD (g : GraphData) :
    ∀ (rings : List RingRec) (st : RingProcState),
    processCycleRings g (stateClearD st) (rings.map clearDampened) =
      stateClearD (processCycleRings g st rings) := by
  intro rings
  induction rings with
  | nil => intro st; rfl
  | cons r rest ih =>
    intro st
    have h₁ : processCycleRings g (stateClearD st)
        ((r :: rest).map clearDampened) =
        processCycleRings g (cycleRingStep g (stateClearD st) (clearDampened r))
          (rest.map clearDampened) := rfl
    have h₂ : processCycleRings g st (r :: rest) =
        processCycleRings g (cycleRingStep g st r) rest := rfl
    rw [h₁, cycleRingStep_clearD, ih, h₂]

theorem processShellRings_clearD (g : GraphData) :
    ∀ (rings : List RingRec) (st : RingProcState),
    processShellRings g (stateClearD st) (rings.map clearDampened) =
      stateClearD (processShellRings g st rings) := by
  intro rings
  induction rings with
  | nil => intro st; rfl
  | cons r rest ih =>
    intro st
    have h₁ : processShellRings g (stateClearD st)
        ((r :: rest).map clearDampened) =
        processShellRings g (shellRingStep g (stateClearD st) (clearDampened r))
          (rest.map clearDampened) := rfl
    have h₂ : processShellRings g st (r :: rest) =
        processShellRings g (shellRingStep g st r) rest := rfl
    rw [h₁, shellRingStep_clearD, ih, h₂]

theorem processAllRings_clearD (g : GraphData) (c s sh : List RingRec) :
    processAllRings g (c.map clearDampened) (s.map clearDampened)
      (sh.map clearDampened) = stateClearD (processAllRings g c s sh) := by
  unfold processAllRings
  have hinit : ({ account_patterns := [], account_rings := [], all_rings := [], ring_counter := 0 } : RingProcState) = stateClearD { account_patterns := [], account_rings := [], all_rings := [], ring_counter := 0 } := rfl
  conv_lhs => rw [hinit]
  rw [processCycleRings_clearD, processSmurfRings_clearD,
    processShellRings_clearD]

theorem stateClearD_components {st₁ st₂ : RingProcState}
    (h : stateClearD st₁ = stateClearD st₂) :
    st₁.account_patterns = st₂.account_patterns ∧
    st₁.account_rings = st₂.account_rings ∧
    st₁.ring_counter = st₂.ring_counter ∧
    st₁.all_rings.map clearDampened = st₂.all_rings.map clearDampened := by
  refine ⟨?_, ?_, ?_, ?_⟩
  · have hx := congrArg RingProcState.account_patterns h
    exact hx
  · have hx := congrArg RingProcState.account_rings h
    exact hx
  · have hx := congrArg RingProcState.ring_counter h
    exact hx
  · have hx := congrArg RingProcState.all_rings h
    exact hx

theorem confList_congr :
    ∀ (l₁ l₂ : List RingRec),
    l₁.map clearDampened = l₂.map clearDampened →
    ∀ ids, confList l₁ ids = confList l₂ ids := by
  intro l₁
  induction l₁ with
  | nil =>
    intro l₂ h ids
    cases l₂ with
    | nil => rfl
    | cons b bs => simp at h
  | cons a as ih =>
    intro l₂ h ids
    cases l₂ with
    | nil => simp at h
    | cons b bs =>
      simp only [List.map_cons, List.cons.injEq] at h
      have hrid : a.ring_id = b.ring_id := by
        have hx := congrArg RingRec.ring_id h.1
        exact hx
      have hconf : a.structural_confidence = b.structural_confidence := by
        have hx := congrArg RingRec.structural_confidence h.1
        exact hx
      unfold confList
      simp only [List.filter_cons]
      have hdec : decide (a.ring_in_id_list ids) =
          decide (b.ring_in_id_list ids) := by
        unfold RingRec.ring_in_id_list
        simp only [hrid]
      rw [hdec]
      have htail : confList as ids = confList bs ids := ih bs h.2 ids
      unfold confList at htail
      cases hd : decide (b.ring_in_id_list ids) with
      | false =>
        simp only [Bool.false_eq_true, if_false]
        exact htail
      | true =>
        simp only [if_true, List.map_cons]
        rw [hconf, htail]

theorem accountConfidence_congr (l₁ l₂ : List RingRec)
    (h : l₁.map clearDampened = l₂.map clearDampened) :
    ∀ ids, accountConfidence l₁ ids = accountConfidence l₂ ids := by
  intro ids
  unfold accountConfidence
  rw [confList_congr l₁ l₂ h ids]

theorem mkRingOut_congr (raw : List (String × ℚ)) {r₁ r₂ : RingRec}
    (h : clearDampened r₁ = clearDampened r₂) :
    mkRingOut raw r₁ = mkRingOut raw r₂ := by
  have hm : r₁.members = r₂.members := by
    have hx := congrArg RingRec.members h
    exact hx
  have hid : r₁.ring_id = r₂.ring_id := by
    have hx := congrArg RingRec.ring_id h
    exact hx
  have hp : r₁.pattern_type = r₂.pattern_type := by
    have hx := congrArg RingRec.pattern_type h
    exact hx
  have hc : r₁.structural_confidence = r₂.structural_confidence := by
    have hx := congrArg RingRec.structural_confidence h
    exact hx
  unfold mkRingOut
  rw [hm, hid, hp, hc]

theorem build_fraud_rings_congr :
    ∀ (l₁ l₂ : List RingRec),
    l₁.map clearDampened = l₂.map clearDampened →
    ∀ raw, build_fraud_rings raw l₁ = build_fraud_rings raw l₂ := by
  have hmap : ∀ (l₁ l₂ : List RingRec),
      l₁.map clearDampened = l₂.map clearDampened →
      ∀ raw, l₁.map (mkRingOut raw) = l₂.map (mkRingOut raw) := by
    intro l₁
    induction l₁ with
    | nil =>
      intro l₂ h raw
      cases l₂ with
      | nil => rfl
      | cons b bs => simp at h
    | cons a as ih =>
      intro l₂ h raw
      cases l₂ with
      | nil => simp at h
      | cons b bs =>
        simp only [List.map_cons, List.cons.injEq] at h
        simp only [List.map_cons]
        rw [mkRingOut_congr raw h.1, ih bs h.2 raw]
  intro l₁ l₂ h raw
  unfold build_fraud_rings
  rw [hmap l₁ l₂ h raw]

theorem buildResult_fields_congr (g : GraphData) {st₁ st₂ : RingProcState}
    (h : stateClearD st₁ = stateClearD st₂) :
    resultAccounts g st₁ = resultAccounts g st₂ ∧
    resultRings g st₁ = resultRings g st₂ := by
  obtain ⟨hpat, hrig, hcnt, hall⟩ := stateClearD_components h
  have hsus : suspiciousSet st₁ = suspiciousSet st₂ := by
    unfold suspiciousSet; rw [hpat]
  have hraw : rawScoresBase g st₁ = rawScoresBase g st₂ := by
    simp only [rawScoresBase]
    rw [hsus, hpat]
  have hconf : ∀ ids, accountConfidence st₁.all_rings ids =
      accountConfidence st₂.all_rings ids :=
    accountConfidence_congr st₁.all_rings st₂.all_rings hall
  have hsc : scoresAfterConfidence g st₁ = scoresAfterConfidence g st₂ := by
    simp only [scoresAfterConfidence]
    rw [hsus, hraw, hrig]
    simp only [hconf]
  have hsd : scoresAfterDensity g st₁ = scoresAfterDensity g st₂ := by
    simp only [scoresAfterDensity]
    rw [hsc, hsus]
  have hfin : finalScores g st₁ = finalScores g st₂ := by
    simp only [finalScores]
    rw [hsd, hsus]
  constructor
  · unfold resultAccounts build_suspicious
    rw [hfin, hsus]
    refine List.map_congr_left ?_
    intro a _
    unfold mkAccountOut
    rw [hpat, hrig]
  · unfold resultRings
    rw [hsd]
    exact build_fraud_rings_congr st₁.all_rings st₂.all_rings hall _

/-- C8: two pipeline runs on the same graph whose smurf-ring inputs
agree once the `dampened` flag is erased produce identical
`suspicious_accounts` (every suspicion_score and the account ordering),
identical `fraud_rings` (every risk_score and the ring ordering) and an
identical summary: the dampened flag has no influence on scoring. -/
theorem c8_dampened_no_influence (g : GraphData) (c sh s₁ s₂ : List RingRec)
    (h : s₁.map clearDampened = s₂.map clearDampened) :
    (run_scoring_pipeline g c s₁ sh).suspicious_accounts =
      (run_scoring_pipeline g c s₂ sh).suspicious_accounts ∧
    (run_scoring_pipeline g c s₁ sh).fraud_rings =
      (run_scoring_pipeline g c s₂ sh).fraud_rings ∧
    (run_scoring_pipeline g c s₁ sh).summary =
      (run_scoring_pipeline g c s₂ sh).summary := by
  have hstate : stateClearD (processAllRings g c s₁ sh) =
      stateClearD (processAllRings g c s₂ sh) := by
    rw [← processAllRings_clearD, ← processAllRings_clearD, h]
  have hpat := (stateClearD_components hstate).1
  have hsus : suspiciousSet (processAllRings g c s₁ sh) =
      suspiciousSet (processAllRings g c s₂ sh) := by
    unfold suspiciousSet; rw [hpat]
  obtain ⟨hacc, hrings⟩ := buildResult_fields_congr g hstate
  unfold run_scoring_pipeline
  by_cases hemp : suspiciousSet (processAllRings g c s₁ sh) = []
  · rw [if_pos hemp, if_pos (hsus ▸ hemp)]
    exact ⟨rfl, rfl, rfl⟩
  · have hemp₂ : ¬ suspiciousSet (processAllRings g c s₂ sh) = [] :=
      fun hh => hemp (by rw [hsus]; exact hh)
    rw [if_neg hemp, if_neg hemp₂]
    refine ⟨hacc, hrings, ?_⟩
    have hsum : ∀ st : RingProcState, (buildResult g st).summary =
        { total_accounts_analyzed := g.all_nodes.length,
          suspicious_accounts_flagged := (resultAccounts g st).length,
          fraud_rings_detected := (resultRings g st).length } := fun _ => rfl
    rw [hsum, hsum, hacc, hrings]

/-- Witness for C8: the triangle pipeline with a smurf ring whose
dampened flag is set versus cleared. -/
theorem c8_dampened_no_influence_witness :
    [ringDampT].map clearDampened = [ringDampF].map clearDampened ∧
    ((run_scoring_pipeline gTriangle [ringTriangle] [ringDampT] []).suspicious_accounts =
      (run_scoring_pipeline gTriangle [ringTriangle] [ringDampF] []).suspicious_accounts ∧
    (run_scoring_pipeline gTriangle [ringTriangle] [ringDampT] []).fraud_rings =
      (run_scoring_pipeline gTriangle [ringTriangle] [ringDampF] []).fraud_rings ∧
    (run_scoring_pipeline gTriangle [ringTriangle] [ringDampT] []).summary =
      (run_scoring_pipeline gTriangle [ringTriangle] [ringDampF] []).summary) :=
  ⟨by decide,
    c8_dampened_no_influence gTriangle [ringTriangle] [] [ringDampT] [ringDampF]
      (by decide)⟩

-- ─────────────────────────────────────────────────────────────────────
-- C10: the sliding window keeps the earliest maximal window
-- ─────────────────────────────────────────────────────────────────────

theorem windowAt_eq_take (txs : List Transaction) (k : ℕ) :
    windowAt txs k = (txs.drop k).take (windowAt txs k).length := by
  unfold windowAt
  exact List.prefix_iff_eq_take.mp (List.takeWhile_prefix _)

theorem windowAt_length_le (txs : List Transaction) (k : ℕ) :
    (windowAt txs k).length ≤ txs.length - k := by
  unfold windowAt
  calc (List.takeWhile _ (txs.drop k)).length
      ≤ (txs.drop k).length := (List.takeWhile_prefix _).length_le
    _ = txs.length - k := by simp

theorem windowAt_cons (txs : List Transaction) (k : ℕ)
    (hk : k < txs.length) :
    windowAt txs k = txs.getD k default :: (txs.drop (k+1)).takeWhile
      (fun t => decide (t.timestamp -
        (txs.getD k default).timestamp ≤ 72 * 3600)) := by
  unfold windowAt
  rw [List.getD_eq_getElem txs default hk, List.drop_eq_getElem_cons hk]
  rw [List.takeWhile_cons]
  simp

theorem windowAt_length_pos (txs : List Transaction) (k : ℕ)
    (hk : k < txs.length) : 1 ≤ (windowAt txs k).length := by
  rw [windowAt_cons txs k hk]
  simp

theorem window_elem_prop (txs : List Transaction) (k j : ℕ)
    (hj : j < (windowAt txs k).length) :
    k + j < txs.length ∧
    (txs.getD (k + j) default).timestamp -
      (txs.getD k default).timestamp ≤ 72 * 3600 := by
  have hle := windowAt_length_le txs k
  have hkj : k + j < txs.length := by omega
  have hjd : j < (txs.drop k).length := by
    rw [List.length_drop]
    omega
  have hpre : windowAt txs k <+: txs.drop k := by
    unfold windowAt; exact List.takeWhile_prefix _
  have helem : (windowAt txs k)[j] = (txs.drop k)[j] := hpre.getElem hj
  have hmem : (windowAt txs k)[j] ∈ windowAt txs k := List.getElem_mem hj
  have hmem2 : (windowAt txs k)[j] ∈ (txs.drop k).takeWhile
      (fun t => decide (t.timestamp -
        (txs.getD k default).timestamp ≤ 72 * 3600)) := hmem
  have hP := List.mem_takeWhile_imp hmem2
  have hdg : (txs.drop k)[j] = txs.getD (k + j) default := by
    rw [List.getD_eq_getElem txs default hkj]
    exact List.getElem_drop txs
  rw [helem, hdg] at hP
  exact ⟨hkj, by simpa using hP⟩

theorem window_boundary (txs : List Transaction) (k : ℕ)
    (hb : k + (windowAt txs k).length < txs.length) :
    ¬ ((txs.getD (k + (windowAt txs k).length) default).timestamp -
      (txs.getD k default).timestamp ≤ 72 * 3600) := by
  set p : Transaction → Bool := fun t => decide (t.timestamp -
    (txs.getD k default).timestamp ≤ 72 * 3600) with hp
  have hwin : windowAt txs k = (txs.drop k).takeWhile p := by
    unfold windowAt
    rw [← hp]
  have hsplit : (txs.drop k).takeWhile p ++ (txs.drop k).dropWhile p =
      txs.drop k := List.takeWhile_append_dropWhile p (txs.drop k)
  have hlensum := congrArg List.length hsplit
  rw [List.length_append, List.length_drop] at hlensum
  have hne : (txs.drop k).dropWhile p ≠ [] := by
    intro hcon
    rw [hcon, List.length_nil] at hlensum
    have hwl : (windowAt txs k).length =
        ((txs.drop k).takeWhile p).length := by rw [hwin]
    omega
  have hheadp := List.head_dropWhile_not p (txs.drop k) hne
  have h0 : 0 < ((txs.drop k).dropWhile p).length := List.length_pos.mpr hne
  have hchain : txs[k + (windowAt txs k).length]? =
      some (((txs.drop k).dropWhile p).head hne) := by
    rw [← List.getElem?_drop]
    conv_lhs => rw [← hsplit]
    rw [List.getElem?_append_right (le_of_eq (congrArg List.length hwin.symm))]
    have hidx0 : (windowAt txs k).length -
        ((txs.drop k).takeWhile p).length = 0 := by
      rw [hwin]
      omega
    rw [hidx0, List.getElem?_eq_getElem h0, List.getElem_zero h0]
  have hsome := List.getElem?_eq_getElem hb
  rw [hsome] at hchain
  have hgd : txs.getD (k + (windowAt txs k).length) default =
      ((txs.drop k).dropWhile p).head hne := by
    rw [List.getD_eq_getElem txs default hb]
    exact Option.some.inj hchain
  rw [hgd]
  simp only [hp] at hheadp
  exact of_decide_eq_false hheadp

theorem takeWhile_length_mono {α : Type} (p q : α → Bool)
    (h : ∀ x, p x = true → q x = true) :
    ∀ l : List α, (l.takeWhile p).length ≤ (l.takeWhile q).length := by
  intro l
  induction l with
  | nil => simp
  | cons a t ih =>
    rw [List.takeWhile_cons, List.takeWhile_cons]
    cases hpa : p a with
    | false => simp
    | true =>
      rw [h a hpa]
      simp only [if_true, List.length_cons]
      exact Nat.succ_le_succ ih

theorem sorted_ts_getD (txs : List Transaction)
    (hsort : txs.Pairwise txTsLe) (i j : ℕ) (hij : i ≤ j)
    (hj : j < txs.length) :
    (txs.getD i default).timestamp ≤ (txs.getD j default).timestamp := by
  rcases eq_or_lt_of_le hij with rfl | hlt
  · exact le_refl _
  · have hi : i < txs.length := lt_trans hlt hj
    have hrel := List.pairwise_iff_get.mp hsort ⟨i, hi⟩ ⟨j, hj⟩ hlt
    rw [List.getD_eq_getElem txs default hi, List.getD_eq_getElem txs default hj]
    exact hrel

theorem windowAt_length_succ (txs : List Transaction)
    (hsort : txs.Pairwise txTsLe) (k : ℕ) (hk : k < txs.length) :
    (windowAt txs k).length ≤ 1 + (windowAt txs (k+1)).length := by
  by_cases hk1 : k + 1 < txs.length
  · rw [windowAt_cons txs k hk]
    simp only [List.length_cons]
    have himp : ∀ t : Transaction,
        (decide (t.timestamp - (txs.getD k default).timestamp ≤ 72 * 3600)) = true →
        (decide (t.timestamp - (txs.getD (k+1) default).timestamp ≤ 72 * 3600)) = true := by
      intro t ht
      simp only [decide_eq_true_eq] at ht ⊢
      have hts := sorted_ts_getD txs hsort k (k+1) (by omega) hk1
      linarith
    have hmono := takeWhile_length_mono _ _ himp (txs.drop (k+1))
    have hw1 : windowAt txs (k+1) = (txs.drop (k+1)).takeWhile
        (fun t => decide (t.timestamp -
          (txs.getD (k+1) default).timestamp ≤ 72 * 3600)) := rfl
    rw [hw1]
    omega
  · have := windowAt_length_le txs k
    have h2 := windowAt_length_pos txs k hk
    omega

theorem sliceCps_window (txs : List Transaction) (direction : String)
    (k : ℕ) :
    sliceCps txs direction k (k + (windowAt txs k).length) =
      (windowAt txs k).map (smurfCp direction) := by
  unfold sliceCps
  rw [Nat.add_sub_cancel_left, ← windowAt_eq_take]

theorem distinctCpsAt_slice (txs : List Transaction) (direction : String)
    (k : ℕ) :
    ((sliceCps txs direction k
      (k + (windowAt txs k).length)).dedup).length =
      distinctCpsAt txs direction k := by
  rw [sliceCps_window]
  rfl

theorem sliceCps_zero (txs : List Transaction) (direction : String)
    (k : ℕ) : sliceCps txs direction k k = [] := by
  unfold sliceCps
  simp

theorem expandFan_spec (txs : List Transaction) (direction : String)
    (k : ℕ) :
    ∀ (fuel right : ℕ), k ≤ right →
    right ≤ k + (windowAt txs k).length →
    k + (windowAt txs k).length - right ≤ fuel →
    expandFan txs direction (txs.getD k default).timestamp fuel right
      (sliceCps txs direction k right) =
      (k + (windowAt txs k).length,
       sliceCps txs direction k (k + (windowAt txs k).length)) := by
  intro fuel
  induction fuel with
  | zero =>
    intro right h1 h2 h3
    have heq : right = k + (windowAt txs k).length := by omega
    subst heq
    rfl
  | succ fuel ih =>
    intro right h1 h2 h3
    rcases eq_or_lt_of_le h2 with heq | hlt
    · -- the right pointer is already at the window end: the loop stops
      have hcond : ¬ (right < txs.length ∧
          (txs.getD right default).timestamp -
            (txs.getD k default).timestamp ≤ 72 * 3600) := by
        intro hc
        rcases hc with ⟨hrn, hts⟩
        rw [heq] at hrn hts
        exact window_boundary txs k hrn hts
      show expandFan txs direction (txs.getD k default).timestamp (fuel + 1)
          right (sliceCps txs direction k right) = _
      rw [expandFan, if_neg hcond, heq]
    · -- the element at `right` is still inside the window: expand
      have hprop := window_elem_prop txs k (right - k) (by omega)
      have hr2 : k + (right - k) = right := by omega
      rw [hr2] at hprop
      have hstep : sliceCps txs direction k right ++
          [smurfCp direction (txs.getD right default)] =
          sliceCps txs direction k (right + 1) := by
        unfold sliceCps
        have h1' : right + 1 - k = (right - k) + 1 := by omega
        rw [h1', List.take_succ]
        have hbound : right - k < (txs.drop k).length := by
          have := windowAt_length_le txs k
          rw [List.length_drop]
          omega
        rw [List.getElem?_drop, hr2,
          List.getElem?_eq_getElem hprop.1]
        simp [List.getD_eq_getElem txs default hprop.1,
          List.getElem?_eq_getElem hprop.1]
      show expandFan txs direction (txs.getD k default).timestamp (fuel + 1)
          right (sliceCps txs direction k right) = _
      rw [expandFan, if_pos ⟨hprop.1, hprop.2⟩, hstep]
      exact ih (right + 1) (by omega) (by omega) (by omega)

theorem sliceCps_erase (txs : List Transaction) (direction : String)
    (k : ℕ) (hk : k < txs.length) :
    (sliceCps txs direction k (k + (windowAt txs k).length)).erase
      (smurfCp direction (txs.getD k default)) =
      sliceCps txs direction (k+1) (k + (windowAt txs k).length) := by
  conv_lhs => rw [sliceCps_window txs direction k, windowAt_cons txs k hk]
  simp only [List.map_cons]
  rw [List.erase_cons_head]
  unfold sliceCps
  congr 1
  have hlc := congrArg List.length (windowAt_cons txs k hk)
  simp only [List.length_cons] at hlc
  have heq : k + (windowAt txs k).length - (k+1) =
      ((txs.drop (k+1)).takeWhile (fun t => decide (t.timestamp -
        (txs.getD k default).timestamp ≤ 72 * 3600))).length := by
    omega
  rw [heq]
  exact List.prefix_iff_eq_take.mp (List.takeWhile_prefix _)

theorem windStep_inv (txs : List Transaction) (direction : String)
    (hsort : txs.Pairwise txTsLe) (k : ℕ) (hk : k < txs.length)
    (st : ℕ × List String × Option (List Transaction × List String))
    (hinv : WindInv txs direction k st) :
    WindInv txs direction (k+1) (windStep txs direction st k) := by
  obtain ⟨h1, h2, h3, h4⟩ := hinv
  have hwle := windowAt_length_le txs k
  have hw1 := windowAt_length_pos txs k hk
  have hwsucc := windowAt_length_succ txs hsort k hk
  have hfuel : k + (windowAt txs k).length - st.1 ≤ txs.length := by omega
  have hexp := expandFan_spec txs direction k txs.length st.1 h1 h2 hfuel
  rw [← h3] at hexp
  unfold windStep
  rw [hexp]
  dsimp only
  have hD := distinctCpsAt_slice txs direction k
  have hTake : (txs.drop k).take (k + (windowAt txs k).length - k) =
      windowAt txs k := by
    rw [Nat.add_sub_cancel_left, ← windowAt_eq_take]
  rw [hD, hTake, sliceCps_window txs direction k]
  refine ⟨by omega, by omega, ?_, ?_⟩
  · rw [← sliceCps_window txs direction k]
    exact sliceCps_erase txs direction k hk
  · rcases hb : st.2.2 with _ | wc
    · rw [hb] at h4
      simp only [WindBestSpec] at h4
      dsimp only
      by_cases hcond : 10 ≤ distinctCpsAt txs direction k ∧
          0 < distinctCpsAt txs direction k
      · rw [if_pos hcond]
        simp only [WindBestSpec]
        refine ⟨k, by omega, rfl, rfl, hcond.1, ?_, ?_⟩
        · intro j hj
          rcases Nat.lt_succ_iff_lt_or_eq.mp hj with hjk | rfl
          · exact le_of_lt (lt_of_lt_of_le (h4 j hjk) hcond.1)
          · exact le_refl _
        · intro j hj
          exact lt_of_lt_of_le (h4 j hj) hcond.1
      · rw [if_neg hcond]
        simp only [WindBestSpec]
        intro j hj
        rcases Nat.lt_succ_iff_lt_or_eq.mp hj with hjk | rfl
        · exact h4 j hjk
        · by_contra hge
          push_neg at hge
          exact hcond ⟨hge, by omega⟩
    · rw [hb] at h4
      simp only [WindBestSpec] at h4
      obtain ⟨l0, hl0, hw0, hc0, h100, hmax0, hfirst0⟩ := h4
      have hlen0 : wc.2.length = distinctCpsAt txs direction l0 := by
        rw [hc0]
        rfl
      dsimp only
      by_cases hcond : 10 ≤ distinctCpsAt txs direction k ∧
          wc.2.length < distinctCpsAt txs direction k
      · rw [if_pos hcond]
        simp only [WindBestSpec]
        have hl0k : distinctCpsAt txs direction l0 <
            distinctCpsAt txs direction k := by
          rw [← hlen0]
          exact hcond.2
        refine ⟨k, by omega, rfl, rfl, hcond.1, ?_, ?_⟩
        · intro j hj
          rcases Nat.lt_succ_iff_lt_or_eq.mp hj with hjk | rfl
          · exact le_of_lt (lt_of_le_of_lt (hmax0 j hjk) hl0k)
          · exact le_refl _
        · intro j hj
          exact lt_of_le_of_lt (hmax0 j hj) hl0k
      · rw [if_neg hcond]
        simp only [WindBestSpec]
        refine ⟨l0, by omega, hw0, hc0, h100, ?_, hfirst0⟩
        intro j hj
        rcases Nat.lt_succ_iff_lt_or_eq.mp hj with hjk | heq
        · exact hmax0 j hjk
        · rw [heq]
          by_cases h10k : 10 ≤ distinctCpsAt txs direction k
          · by_contra hgt
            push_neg at hgt
            refine absurd hcond ?_
            intro hcon
            exact hcon ⟨h10k, by rw [hlen0]; exact hgt⟩
          · push_neg at h10k
            omega

theorem windFold_inv (txs : List Transaction) (direction : String)
    (hsort : txs.Pairwise txTsLe) :
    ∀ (m k : ℕ)
      (st : ℕ × List String × Option (List Transaction × List String)),
    k + m = txs.length → WindInv txs direction k st →
    WindInv txs direction txs.length
      ((List.range' k m).foldl (windStep txs direction) st) := by
  intro m
  induction m with
  | zero =>
    intro k st hkm hinv
    have hk : k = txs.length := by omega
    subst hk
    rw [List.range'_zero, List.foldl_nil]
    exact hinv
  | succ m ih =>
    intro k st hkm hinv
    rw [List.range'_succ k m 1, List.foldl_cons]
    exact ih (k+1) (windStep txs direction st k) (by omega)
      (windStep_inv txs direction hsort k (by omega) st hinv)

/-- C10: on a timestamp-sorted transaction list, the window returned by
`_best_sliding_window` is the one anchored at the earliest left index
attaining the maximal distinct-counterparty count (which is ≥ 10): every
window's count is at most the returned window's, and every strictly
earlier window has a strictly smaller count — so a later window that
merely ties never replaces the retained one. -/
theorem c10_earliest_max_window (txs : List Transaction)
    (direction : String) (hsort : txs.Pairwise txTsLe)
    (w : List Transaction) (cps : List String)
    (hres : best_sliding_window txs direction = some (w, cps)) :
    ∃ l, l < txs.length ∧ w = windowAt txs l ∧
      cps = ((windowAt txs l).map (smurfCp direction)).dedup ∧
      10 ≤ distinctCpsAt txs direction l ∧
      (∀ j < txs.length,
        distinctCpsAt txs direction j ≤ distinctCpsAt txs direction l) ∧
      (∀ j < l,
        distinctCpsAt txs direction j < distinctCpsAt txs direction l) := by
  by_cases hnil : txs = []
  · rw [hnil] at hres
    simp [best_sliding_window] at hres
  · have hinit : WindInv txs direction 0 (0, [], none) := by
      refine ⟨le_refl 0, Nat.zero_le _,
        (sliceCps_zero txs direction 0).symm, ?_⟩
      simp only [WindBestSpec]
      intro j hj
      exact absurd hj (Nat.not_lt_zero j)
    have hfold := windFold_inv txs direction hsort txs.length 0
      (0, [], none) (by omega) hinit
    obtain ⟨-, -, -, hspec⟩ := hfold
    have hbw : best_sliding_window txs direction =
        ((List.range' 0 txs.length).foldl (windStep txs direction)
          (0, [], none)).2.2 := by
      unfold best_sliding_window
      rw [if_neg hnil, List.range_eq_range']
    rw [hbw] at hres
    rw [hres] at hspec
    simp only [WindBestSpec] at hspec
    obtain ⟨l, hl, hw, hc, h10, hmax, hfirst⟩ := hspec
    exact ⟨l, hl, hw, hc, h10, hmax, hfirst⟩

/-- Witness for C10: hub `H` fanning out to ten counterparties within
nine hours. -/
theorem c10_earliest_max_window_witness :
    hubTxs.Pairwise txTsLe ∧
    best_sliding_window hubTxs "fan_out" = some (hubTxs, hubCps) ∧
    (∃ l, l < hubTxs.length ∧ hubTxs = windowAt hubTxs l ∧
      hubCps = ((windowAt hubTxs l).map (smurfCp "fan_out")).dedup ∧
      10 ≤ distinctCpsAt hubTxs "fan_out" l ∧
      (∀ j < hubTxs.length, distinctCpsAt hubTxs "fan_out" j ≤
        distinctCpsAt hubTxs "fan_out" l) ∧
      (∀ j < l, distinctCpsAt hubTxs "fan_out" j <
        distinctCpsAt hubTxs "fan_out" l)) :=
  ⟨by decide, by decide,
    c10_earliest_max_window hubTxs "fan_out" (by decide) hubTxs hubCps
      (by decide)⟩
